import Mathlib

/-!
# Dictionary filter (`example/dictionary_filter.hpp`)

A shallow embedding of the `dictionary` class and of the three filters built on it
(`dictionary_stdio_filter`, `dictionary_input_filter`, `dictionary_output_filter`),
followed by theorems about them.

Conventions of the embedding:

* `std::string` is `List Char`; `std::string::size_type` is a `Nat` below `2^64`, with
  `npos = 2^64 - 1` and wrap-around arithmetic written out.
* a `char` is a `Char` with a code below 256, and `char` is a signed type of 8 bits: the
  conversions between `char` and `int` that the source leaves implicit are written out
  (`to_int_type`, `int_of_char`, `char_of_int`), and the values a filter returns are `int`s,
  among them `EOF = -1` and `WOULD_BLOCK = -2`.
* `std::map<std::string, std::string>` is an association list searched from the front;
  nothing in the source iterates over the map, so the order of the entries is not observable.
* mutation through a reference (`dictionary& dictionary_`, `std::string& key`,
  `std::string& value = it->second`) is explicit state passing.
* `std::locale` is a record of the `ctype<char>` operations the source calls and of the facet
  `ctype<int>`, which a locale has only when a program has installed one. The filters call
  `std::isalpha(c, loc)` with an `int`, which asks the locale for `ctype<int>` and leaves
  through the exception `std::bad_cast` when the locale has none: a call ends in an
  `outcome`, a returned value or `bad_cast`.
* a read outside the character buffer of a string has no defined result: `none`.
-/

set_option linter.unusedVariables false

namespace iostreams

/-! ## Strings, sizes, characters, locales -/

/-- The type `std::string`. -/
abbrev string := List Char

/-- The constant `std::string::npos`, the largest value of `size_type`. -/
def npos : Nat := 2 ^ 64 - 1

/-- Subtraction of two `size_type` values, modulo `2^64`. -/
def size_sub (a b : Nat) : Nat := (a % 2 ^ 64 + (2 ^ 64 - b % 2 ^ 64)) % 2 ^ 64

/-- Addition of two `size_type` values, modulo `2^64`. -/
def size_add (a b : Nat) : Nat := (a + b) % 2 ^ 64

/-- The constant `EOF` of `<cstdio>`. -/
def EOF : Int := -1

/-- The constant `WOULD_BLOCK` of `boost/iostreams/char_traits.hpp`, defined as `EOF - 1`. -/
def WOULD_BLOCK : Int := EOF - 1

/-- The `int` that `std::cin.get()` and `iostreams::get(src)` return for a character read:
`traits_type::to_int_type(c)`, the value of `c` as an `unsigned char`. -/
def to_int_type (c : Char) : Int := ((c.toNat % 256 : Nat) : Int)

/-- The implicit conversion of a `char` to `int`, as in `return current_word_[off_++]` from a
function that returns `int`: `char` being signed, the codes from 128 on become negative. -/
def int_of_char (c : Char) : Int :=
  if c.toNat % 256 < 128 then ((c.toNat % 256 : Nat) : Int)
  else ((c.toNat % 256 : Nat) : Int) - 256

/-- The implicit conversion of an `int` to `char`, as in `current_word_ += c` and
`cout.put(c)`: the value modulo `2^8`. -/
def char_of_int (i : Int) : Char := Char.ofNat (i % 256).toNat

/-- How a call ends: it returns a value, or it is left through the exception
`std::bad_cast`, which none of the functions of the source catches. -/
inductive outcome (α : Type) where
  | ret (a : α)
  | bad_cast
  deriving DecidableEq

/-- What the source uses of a `std::locale`: the classification and case mapping of `char`
by the facet `ctype<char>`, which every locale has, and the facet `ctype<int>`, given by its
classification `is(alpha, c)` when the locale has one. -/
structure locale where
  isupper : Char → Bool
  toupper : Char → Char
  tolower : Char → Char
  ctype_int : Option (Int → Bool)

/-- The locale `std::locale::classic()`: ASCII letters only, and no facet `ctype<int>`. -/
def locale.classic : locale :=
  { isupper := Char.isUpper, toupper := Char.toUpper, tolower := Char.toLower,
    ctype_int := none }

/-- The call `std::isalpha(c, loc)` with `c` of type `int`: it is
`std::use_facet<std::ctype<int>>(loc).is(alpha, c)`, and `use_facet` throws `std::bad_cast`
when `loc` has no such facet. -/
def locale.isalpha (loc : locale) (c : Int) : outcome Bool :=
  match loc.ctype_int with
  | none => outcome.bad_cast
  | some is_alpha => outcome.ret (is_alpha c)

/-! ## `std::map<std::string, std::string>` -/

/-- The type `dictionary::map_type`. -/
abbrev map_type := List (string × string)

/-- The call `map_.find(key)`: the mapped value, `none` for `map_.end()`. -/
def map_find : map_type → string → Option string
  | [], _ => none
  | (k, v) :: rest, key => if k = key then some v else map_find rest key

/-- The statement `map_[key] = value`, also used for a write through `it->second`. -/
def map_assign : map_type → string → string → map_type
  | [], key, value => [(key, value)]
  | (k, v) :: rest, key, value =>
      if k = key then (k, value) :: rest else (k, v) :: map_assign rest key value

/-! ## `class dictionary` -/

/-- The data members of `dictionary`. -/
structure dictionary where
  map_ : map_type
  loc_ : locale
  max_length_ : Nat

namespace dictionary

/-- The constructor `dictionary(loc)`. It initialises `loc_` only; `max_length_` keeps the
indeterminate value `uninit` it happens to hold. -/
def ctor (loc : locale) (uninit : Nat) : dictionary :=
  { map_ := [], loc_ := loc, max_length_ := uninit }

/-- The member `getloc`. -/
def getloc (d : dictionary) : locale := d.loc_

/-- The member `tolower`: every character of `str` is mapped through `std::tolower`. -/
def tolower (d : dictionary) (str : string) : string := str.map d.loc_.tolower

/-- The member `add`. -/
def add (d : dictionary) (key value : string) : dictionary :=
  let max_length := if d.max_length_ < key.length then key.length else d.max_length_
  let key := d.tolower key
  { d with max_length_ := max_length, map_ := map_assign d.map_ key value }

/-- The member `replace`. The result is the dictionary after the call, the string left in the
reference parameter `key`, and the returned `bool`.  As in the source, `copy` is computed and
the look-up is `map_.find(key)`. -/
def replace (d : dictionary) (key : string) : dictionary × string × Bool :=
  let copy := d.tolower key
  match map_find d.map_ key with
  | none => (d, key, false)
  | some value =>
    match value, key with
    | v0 :: vs, k0 :: _ =>
      if d.loc_.isupper k0 then
        let value := d.loc_.toupper v0 :: vs
        ({ d with map_ := map_assign d.map_ key value }, value, true)
      else (d, value, true)
    | _, _ => (d, value, true)

/-- A dictionary as a program builds it: the constructor followed by `add` calls. -/
def build (loc : locale) (uninit : Nat) (entries : List (string × string)) : dictionary :=
  entries.foldl (fun d e => d.add e.1 e.2) (ctor loc uninit)

end dictionary

/-! ## `class dictionary_stdio_filter` -/

/-- The data members of `dictionary_stdio_filter`. -/
structure dictionary_stdio_filter where
  dictionary_ : dictionary
  current_word_ : string

/-- The member `do_filter`. `cin` is what remains unread of standard input (end of the list is
`EOF`), `cout` what has been written to standard output; the result is the filter, `cout`,
and how the call has ended: through `break`, or through `std::bad_cast`. -/
def dictionary_stdio_filter.do_filter (f : dictionary_stdio_filter) :
    List Char → List Char → dictionary_stdio_filter × List Char × outcome Unit
  | [], cout =>
    let r := f.dictionary_.replace f.current_word_
    ({ dictionary_ := r.1, current_word_ := [] }, cout ++ r.2.1, outcome.ret ())
  | ch :: cin, cout =>
    let c := to_int_type ch
    match f.dictionary_.getloc.isalpha c with
    | outcome.bad_cast => (f, cout, outcome.bad_cast)
    | outcome.ret alpha =>
      if !alpha then
        let r := f.dictionary_.replace f.current_word_
        do_filter { dictionary_ := r.1, current_word_ := [] } cin
          (cout ++ r.2.1 ++ [char_of_int c])
      else
        do_filter { f with current_word_ := f.current_word_ ++ [char_of_int c] } cin cout

/-- The blocking adapter run on a whole input: a fresh filter over `d`; the text on `cout`
and how `do_filter` has ended. -/
def blocking_output (d : dictionary) (input : string) : string × outcome Unit :=
  (dictionary_stdio_filter.do_filter { dictionary_ := d, current_word_ := [] } input []).2

/-! ## Sources and sinks -/

/-- Modelled from the spec: the template parameter `Source`, with the contract
`read() -> character | EndOfInput | WouldBlock`. `pending` lists what the next reads deliver,
`none` standing for a read that is not ready; once the list is used up every read reports
end of input. `reads` counts the reads made. -/
structure Source where
  pending : List (Option Char)
  reads : Nat
  deriving DecidableEq

/-- The call `iostreams::get(src)`: the character read as an `int`, `EOF` or `WOULD_BLOCK`. -/
def Source.get (src : Source) : Int × Source :=
  match src.pending with
  | [] => (EOF, { src with reads := src.reads + 1 })
  | none :: rest => (WOULD_BLOCK, { pending := rest, reads := src.reads + 1 })
  | some ch :: rest => (to_int_type ch, { pending := rest, reads := src.reads + 1 })

/-- A source that delivers the characters of `input` and then end of input, never
`WOULD_BLOCK`. -/
def Source.of_string (input : string) : Source := { pending := input.map some, reads := 0 }

/-- Modelled from the spec: the template parameter `Sink`, with the contract
`write(bytes) -> count-written`, where the count may be less than the length offered.
`received` is what the sink has taken so far, `calls` the number of writes made, and
`accept i n` the number of characters the sink is willing to take at write number `i` when
`n` are offered (capped at `n`). -/
structure Sink where
  received : List Char
  calls : Nat
  accept : Nat → Nat → Nat

/-- The count the next write returns when `n` characters are offered. -/
def Sink.count (dest : Sink) (n : Nat) : Nat := min (dest.accept dest.calls n) n

/-- The call `iostreams::write(dest, s, n)` with the `n` characters `buf`. -/
def Sink.write (dest : Sink) (buf : List Char) : Sink × Nat :=
  let result := dest.count buf.length
  ({ dest with received := dest.received ++ buf.take result, calls := dest.calls + 1 }, result)

/-- A sink that accepts every character offered. -/
def Sink.all : Sink := { received := [], calls := 0, accept := fun _ n => n }

/-- A sink that accepts at most `k` characters per call. -/
def Sink.at_most (k : Nat) : Sink := { received := [], calls := 0, accept := fun _ _ => k }

/-- The characters `s.data() + off` up to `s.data() + off + amt`, where `amt` has gone through
`static_cast<streamsize>`; defined when the count is not negative and the range lies inside
the characters of `s`. -/
def char_range (s : string) (off amt : Nat) : Option (List Char) :=
  if amt < 2 ^ 63 ∧ off + amt ≤ s.length then some ((s.drop off).take amt) else none

/-! ## `class dictionary_input_filter` -/

/-- The data members of `dictionary_input_filter`. -/
structure dictionary_input_filter where
  dictionary_ : dictionary
  current_word_ : string
  off_ : Nat
  eof_ : Bool

namespace dictionary_input_filter

/-- The constructor of `dictionary_input_filter`. -/
def ctor (d : dictionary) : dictionary_input_filter :=
  { dictionary_ := d, current_word_ := [], off_ := npos, eof_ := false }

/-- The `while (true)` loop of `get`, on a source that has made `reads` reads and has the
reads listed still to deliver. The last component tells how the loop is left:
`outcome.ret false` through `return WOULD_BLOCK`, `outcome.ret true` through `break`, and
`outcome.bad_cast` through the exception of `std::isalpha`. A character read is the `int`
`to_int_type ch`, which is neither `WOULD_BLOCK` nor `EOF`. -/
def get_loop (f : dictionary_input_filter) (reads : Nat) :
    List (Option Char) → dictionary_input_filter × Source × outcome Bool
  | [] =>
    let r := f.dictionary_.replace f.current_word_
    ({ dictionary_ := r.1, current_word_ := r.2.1, off_ := 0, eof_ := true },
      { pending := [], reads := reads + 1 }, outcome.ret true)
  | none :: rest => (f, { pending := rest, reads := reads + 1 }, outcome.ret false)
  | some ch :: rest =>
    let c := to_int_type ch
    match f.dictionary_.getloc.isalpha c with
    | outcome.bad_cast => (f, { pending := rest, reads := reads + 1 }, outcome.bad_cast)
    | outcome.ret alpha =>
      if !alpha then
        let r := f.dictionary_.replace f.current_word_
        ({ dictionary_ := r.1, current_word_ := r.2.1 ++ [char_of_int c], off_ := 0,
           eof_ := f.eof_ },
          { pending := rest, reads := reads + 1 }, outcome.ret true)
      else
        get_loop { f with current_word_ := f.current_word_ ++ [char_of_int c] } (reads + 1) rest

/-- The member `get`: the `int` returned, or `std::bad_cast`, with the filter and the source
after the call. `depth` bounds the nesting of the call `this->get(src)` in the last line;
`none` means that the bound was reached. -/
def get : Nat → dictionary_input_filter → Source →
    Option (outcome Int × dictionary_input_filter × Source)
  | 0, _, _ => none
  | depth + 1, f, src =>
    if f.eof_ then some (outcome.ret EOF, f, src)
    else if h : f.off_ ≠ npos ∧ f.off_ < f.current_word_.length then
      some (outcome.ret (int_of_char (f.current_word_.get ⟨f.off_, h.2⟩)),
        { f with off_ := size_add f.off_ 1 }, src)
    else
      let f1 := if f.off_ = f.current_word_.length then
          { f with current_word_ := [], off_ := npos } else f
      match get_loop f1 src.reads src.pending with
      | (f2, src2, outcome.ret false) => some (outcome.ret WOULD_BLOCK, f2, src2)
      | (f2, src2, outcome.bad_cast) => some (outcome.bad_cast, f2, src2)
      | (f2, src2, outcome.ret true) => get depth f2 src2

/-- The member `close`. -/
def close (f : dictionary_input_filter) : dictionary_input_filter :=
  { f with current_word_ := [], off_ := npos, eof_ := false }

/-- The call `get(src)` made `k` times in a row: how each call has ended, in order, and the
filter and the source after the last call. -/
def get_times (depth : Nat) : Nat → dictionary_input_filter → Source →
    Option (List (outcome Int) × dictionary_input_filter × Source)
  | 0, f, src => some ([], f, src)
  | k + 1, f, src =>
    match get depth f src with
    | none => none
    | some (r, f1, src1) => (get_times depth k f1 src1).map (fun t => (r :: t.1, t.2))

end dictionary_input_filter

/-! ## `class dictionary_output_filter` -/

/-- The data members of `dictionary_output_filter` that the code reads or writes
(`initialized_` is declared and never used). -/
structure dictionary_output_filter where
  dictionary_ : dictionary
  current_word_ : string
  off_ : Nat

namespace dictionary_output_filter

/-- The constructor of `dictionary_output_filter`. -/
def ctor (d : dictionary) : dictionary_output_filter :=
  { dictionary_ := d, current_word_ := [], off_ := npos }

/-- The count `amt` computed by `write_current_word`: `current_word_.size() - off_`. -/
def write_amt (f : dictionary_output_filter) : Nat := size_sub f.current_word_.length f.off_

/-- The member `write_current_word`; `none` when the range handed to `iostreams::write` is
not inside `current_word_`. -/
def write_current_word (f : dictionary_output_filter) (dest : Sink) :
    Option (dictionary_output_filter × Sink × Bool) :=
  let amt := f.write_amt
  match char_range f.current_word_ f.off_ amt with
  | none => none
  | some buf =>
    let w := dest.write buf
    if w.2 = amt then some ({ f with current_word_ := [], off_ := npos }, w.1, true)
    else some ({ f with off_ := size_add f.off_ w.2 }, w.1, false)

/-- The member `put`: the filter and the sink after the call, and the `bool` returned or
`std::bad_cast`; `none` when a write reads outside `current_word_`. -/
def put (f : dictionary_output_filter) (dest : Sink) (c : Int) :
    Option (dictionary_output_filter × Sink × outcome Bool) :=
  match (if f.off_ ≠ npos then f.write_current_word dest else some (f, dest, true)) with
  | none => none
  | some (f1, dest1, false) => some (f1, dest1, outcome.ret false)
  | some (f1, dest1, true) =>
    match f1.dictionary_.getloc.isalpha c with
    | outcome.bad_cast => some (f1, dest1, outcome.bad_cast)
    | outcome.ret alpha =>
      let f2 :=
        if !alpha then
          let r := f1.dictionary_.replace f1.current_word_
          { dictionary_ := r.1, current_word_ := r.2.1, off_ := 0 }
        else f1
      some ({ f2 with current_word_ := f2.current_word_ ++ [char_of_int c] }, dest1,
        outcome.ret true)

/-- The member `close`. -/
def close (f : dictionary_output_filter) (dest : Sink) :
    Option (dictionary_output_filter × Sink) :=
  let f1 :=
    if f.off_ = npos then
      let r := f.dictionary_.replace f.current_word_
      { f with dictionary_ := r.1, current_word_ := r.2.1 }
    else f
  if f1.current_word_ ≠ [] then
    match f1.write_current_word dest with
    | none => none
    | some (f2, dest1, _) => some ({ f2 with current_word_ := [], off_ := npos }, dest1)
  else some ({ f1 with current_word_ := [], off_ := npos }, dest)

/-- The part of `put` that follows the write of a pending word: the word is resolved when
`c` is not alphabetic, and `c` is appended; the filter after it and how `put` ends. -/
def put_accept (f : dictionary_output_filter) (c : Int) :
    dictionary_output_filter × outcome Bool :=
  match f.dictionary_.getloc.isalpha c with
  | outcome.bad_cast => (f, outcome.bad_cast)
  | outcome.ret alpha =>
    let f2 :=
      if !alpha then
        let r := f.dictionary_.replace f.current_word_
        { dictionary_ := r.1, current_word_ := r.2.1, off_ := 0 }
      else f
    ({ f2 with current_word_ := f2.current_word_ ++ [char_of_int c] }, outcome.ret true)

/-- A caller that repeats `put(dest, c)` with the same character, converted to `int` for
the parameter `int c`, until it returns `true`, at most `n` times; `none` when it has not
returned `true` within `n` calls, when a call has thrown, and when a call reads outside the
buffer. -/
def put_retry : Nat → dictionary_output_filter → Sink → Char →
    Option (dictionary_output_filter × Sink)
  | 0, _, _, _ => none
  | n + 1, f, dest, c =>
    match f.put dest (int_of_char c) with
    | none => none
    | some (f1, dest1, outcome.ret true) => some (f1, dest1)
    | some (f1, dest1, outcome.ret false) => put_retry n f1 dest1 c
    | some (_, _, outcome.bad_cast) => none

/-- A caller that feeds the characters of `input` in order, each through `put_retry n`. -/
def put_all (n : Nat) : dictionary_output_filter → Sink → List Char →
    Option (dictionary_output_filter × Sink)
  | f, dest, [] => some (f, dest)
  | f, dest, c :: rest =>
    match put_retry n f dest c with
    | none => none
    | some (f1, dest1) => put_all n f1 dest1 rest

/-- The call `close(dest)` made `k` times in a row. -/
def close_times : Nat → dictionary_output_filter → Sink →
    Option (dictionary_output_filter × Sink)
  | 0, f, dest => some (f, dest)
  | k + 1, f, dest =>
    match f.close dest with
    | none => none
    | some (f1, dest1) => close_times k f1 dest1

/-- The push adapter run on a whole input: a fresh filter over `d`, every character of `input`
through `put` (retried up to `n` times each), then `close` called `k` times; the result is
what the sink has received, and `none` when a `put` has not returned `true` or a call reads
outside the buffer. -/
def push_output (d : dictionary) (dest : Sink) (n k : Nat) (input : string) : Option string :=
  match put_all n (ctor d) dest input with
  | none => none
  | some (f, dest1) => (close_times k f dest1).map (fun r => r.2.received)

end dictionary_output_filter

/-! ## Reference behaviour, in the words of the specification -/

/-- The string left in `w` by `dictionary::replace(w)`. -/
def resolve (d : dictionary) (w : string) : string := (d.replace w).2.1

/-- The case-folded form of a word: every character mapped to lowercase. -/
def fold (loc : locale) (w : string) : string := w.map loc.tolower

/-! ## Further notions used in the statements and proofs -/

/-- The text `replace` leaves for a stored `value` found under `key`. -/
def adjust (loc : locale) (value key : string) : string :=
  match value, key with
  | v0 :: vs, k0 :: _ => if loc.isupper k0 then loc.toupper v0 :: vs else value
  | _, _ => value

/-- The states of the push adapter met between two `put` calls when the stored values and
the input are shorter than `n`: either no word is pending and the buffer holds the
alphabetic run read so far, or a resolved word with its separator is pending from offset `0`.
`rem` is the number of input characters still to come. -/
def push_inv (n : Nat) (f : dictionary_output_filter) (rem : Nat) : Prop :=
  (∀ k v, map_find f.dictionary_.map_ k = some v → v.length < n) ∧
    ((f.off_ = npos ∧ f.current_word_.length + rem < n) ∨
      (f.off_ = 0 ∧ f.current_word_ ≠ [] ∧ f.current_word_.length ≤ n ∧ rem < n))

/-- A caller that makes one `put` call after the other, each with a character, converted to
`int` for the parameter `int c`, and a sink of its own choice, whatever the previous call
has returned or thrown; `none` when a call reads outside the buffer. -/
def dictionary_output_filter.put_calls :
    dictionary_output_filter → List (Sink × Char) → Option dictionary_output_filter
  | f, [] => some f
  | f, (dest, c) :: rest =>
    match f.put dest (int_of_char c) with
    | none => none
    | some (f1, _, _) => dictionary_output_filter.put_calls f1 rest

/-- The two kinds of state of the push adapter: no word is pending and the buffer holds
alphabetic characters only, or the cursor is inside the buffer and the buffer is a resolved
word, what `replace` has left of an alphabetic word `w`, followed by one non-alphabetic
character. A character is alphabetic when `std::isalpha` returns `true` for it, and
non-alphabetic when `std::isalpha` returns `false`. -/
def push_state (f : dictionary_output_filter) : Prop :=
  (f.off_ = npos ∧
      ∀ x ∈ f.current_word_, f.dictionary_.getloc.isalpha (int_of_char x) = outcome.ret true) ∨
    (f.off_ < f.current_word_.length ∧
      ∃ (e : dictionary) (w : string) (c : Char),
        (∀ x ∈ w, e.getloc.isalpha (int_of_char x) = outcome.ret true) ∧
          e.getloc.isalpha (int_of_char c) = outcome.ret false ∧
          f.dictionary_ = (e.replace w).1 ∧ f.current_word_ = (e.replace w).2.1 ++ [c])

/-- Sizes in a state of the push adapter from which `k` more `put` calls are made, when the
stored values are shorter than `n`. -/
def push_bound (n : Nat) (f : dictionary_output_filter) (k : Nat) : Prop :=
  (∀ key v, map_find f.dictionary_.map_ key = some v → v.length < n) ∧
    ((f.off_ = npos ∧ f.current_word_.length + k < n) ∨
      (f.off_ ≠ npos ∧ f.current_word_.length ≤ n ∧ k < n))

/-- A sink that takes nothing at every other call and one character at the calls between. -/
def Sink.stuttering : Sink := { received := [], calls := 0, accept := fun i _ => i % 2 }

/-! ## Dictionaries and inputs used as examples -/

/-- The dictionary with no entry, in the classic locale. -/
def empty_dictionary : dictionary := dictionary.ctor locale.classic 0

/-- The dictionary with the single entry `"cat" -> "dog"`, in the classic locale. -/
def cat_dog : dictionary := dictionary.build locale.classic 0 [("cat".toList, "dog".toList)]

/-- The dictionary with the single entry `"" -> "x"`, in the classic locale. -/
def empty_key_dictionary : dictionary :=
  dictionary.build locale.classic 0 [([], "x".toList)]

/-- The classic locale in which a program has installed a facet `ctype<int>` that
classifies the ASCII letters, and nothing else, as alphabetic. -/
def locale.classic_int : locale :=
  { locale.classic with
    ctype_int := some (fun c => decide ((65 ≤ c ∧ c ≤ 90) ∨ (97 ≤ c ∧ c ≤ 122))) }

/-- The dictionary with no entry, in the locale `locale.classic_int`. -/
def empty_dictionary_int : dictionary := dictionary.ctor locale.classic_int 0

/-- The dictionary with the single entry `"cat" -> "dog"`, in the locale
`locale.classic_int`. -/
def cat_dog_int : dictionary :=
  dictionary.build locale.classic_int 0 [("cat".toList, "dog".toList)]

/-! ## Characters of the classic locale -/

theorem toNat_ofNat_small (n : Nat) (h : n < 256) : (Char.ofNat n).toNat = n := by
  have hv : n.isValidChar := Or.inl (by omega)
  simp only [Char.ofNat, hv, Char.ofNatAux, Char.toNat, dite_true]
  rfl

theorem classic_toupper_idem (c : Char) :
    locale.classic.toupper (locale.classic.toupper c) = locale.classic.toupper c := by
  show c.toUpper.toUpper = c.toUpper
  by_cases h : c.toNat ≥ 97 ∧ c.toNat ≤ 122
  · have h1 : c.toUpper = Char.ofNat (c.toNat - 32) := by simp [Char.toUpper, h]
    have h2 : (Char.ofNat (c.toNat - 32)).toNat = c.toNat - 32 :=
      toNat_ofNat_small _ (by omega)
    have h3 : ¬ ((Char.ofNat (c.toNat - 32)).toNat ≥ 97 ∧
        (Char.ofNat (c.toNat - 32)).toNat ≤ 122) := by rw [h2]; omega
    rw [h1]
    simp only [Char.toUpper, h3, if_false]
  · have h1 : c.toUpper = c := by simp only [Char.toUpper, h, if_false]
    rw [h1, h1]

theorem classic_tolower_idem (c : Char) :
    locale.classic.tolower (locale.classic.tolower c) = locale.classic.tolower c := by
  show c.toLower.toLower = c.toLower
  by_cases h : c.toNat ≥ 65 ∧ c.toNat ≤ 90
  · have h1 : c.toLower = Char.ofNat (c.toNat + 32) := by simp [Char.toLower, h]
    have h2 : (Char.ofNat (c.toNat + 32)).toNat = c.toNat + 32 :=
      toNat_ofNat_small _ (by omega)
    have h3 : ¬ ((Char.ofNat (c.toNat + 32)).toNat ≥ 65 ∧
        (Char.ofNat (c.toNat + 32)).toNat ≤ 90) := by rw [h2]; omega
    rw [h1]
    simp only [Char.toLower, h3, if_false]
  · have h1 : c.toLower = c := by simp only [Char.toLower, h, if_false]
    rw [h1, h1]

theorem classic_isupper_tolower (c : Char) :
    locale.classic.isupper (locale.classic.tolower c) = false := by
  show c.toLower.isUpper = false
  have key : ∀ x : Char, x.isUpper = true → (x.toNat ≥ 65 ∧ x.toNat ≤ 90) := by
    intro x hx
    simp only [Char.isUpper, Bool.and_eq_true, decide_eq_true_eq] at hx
    exact ⟨hx.1, hx.2⟩
  by_cases h : c.toNat ≥ 65 ∧ c.toNat ≤ 90
  · have h1 : c.toLower = Char.ofNat (c.toNat + 32) := by simp [Char.toLower, h]
    have h2 : (Char.ofNat (c.toNat + 32)).toNat = c.toNat + 32 :=
      toNat_ofNat_small _ (by omega)
    rw [h1]
    cases hu : (Char.ofNat (c.toNat + 32)).isUpper with
    | false => rfl
    | true =>
      have := key _ hu
      omega
  · have h1 : c.toLower = c := by simp only [Char.toLower, h, if_false]
    rw [h1]
    cases hu : c.isUpper with
    | false => rfl
    | true => exact absurd (key _ hu) h

/-! ## The map and `dictionary::replace` -/

theorem map_find_assign (m : map_type) (k v w : string) :
    map_find (map_assign m k v) w = if k = w then some v else map_find m w := by
  induction m with
  | nil => simp [map_assign, map_find]
  | cons e m ih =>
    obtain ⟨k1, v1⟩ := e
    by_cases h1 : k1 = k
    · subst h1
      by_cases h2 : k1 = w <;> simp [map_assign, map_find, h2]
    · by_cases h2 : k1 = w
      · subst h2
        have h3 : ¬ k = k1 := fun h => h1 h.symm
        simp [map_assign, map_find, h1, h3]
      · simp [map_assign, map_find, h1, h2, ih]

theorem map_find_mem (m : map_type) (k v : string) (h : map_find m k = some v) :
    (k, v) ∈ m := by
  induction m with
  | nil => simp [map_find] at h
  | cons e m ih =>
    obtain ⟨k1, v1⟩ := e
    unfold map_find at h
    by_cases hk : k1 = k
    · rw [if_pos hk] at h
      simp only [Option.some.injEq] at h
      rw [hk, h]
      exact List.mem_cons_self _ _
    · rw [if_neg hk] at h
      exact List.mem_cons_of_mem _ (ih h)

theorem replace_not_found (d : dictionary) (w : string) (h : map_find d.map_ w = none) :
    d.replace w = (d, w, false) := by
  unfold dictionary.replace
  simp [h]

theorem replace_true_iff (d : dictionary) (w : string) :
    (d.replace w).2.2 = true ↔ (map_find d.map_ w).isSome = true := by
  unfold dictionary.replace
  cases h : map_find d.map_ w with
  | none => simp
  | some value =>
    cases value with
    | nil => simp
    | cons v0 vs =>
      cases w with
      | nil => simp
      | cons k0 ks => by_cases hu : d.loc_.isupper k0 = true <;> simp [hu]

theorem resolve_eq (d : dictionary) (w : string) :
    resolve d w = match map_find d.map_ w with
      | none => w
      | some value => adjust d.loc_ value w := by
  unfold resolve dictionary.replace adjust
  cases h : map_find d.map_ w with
  | none => rfl
  | some value =>
    cases value with
    | nil => rfl
    | cons v0 vs =>
      cases w with
      | nil => rfl
      | cons k0 ks =>
        by_cases hu : d.loc_.isupper k0 = true <;> simp [hu]

theorem replace_loc (d : dictionary) (w : string) : (d.replace w).1.loc_ = d.loc_ := by
  unfold dictionary.replace
  cases h : map_find d.map_ w with
  | none => rfl
  | some value =>
    cases value with
    | nil => rfl
    | cons v0 vs =>
      cases w with
      | nil => rfl
      | cons k0 ks =>
        by_cases hu : d.loc_.isupper k0 = true <;> simp [hu]

theorem replace_map_find (d : dictionary) (k w : string) :
    map_find (d.replace k).1.map_ w =
      if k = w then (map_find d.map_ k).map (fun v => adjust d.loc_ v k)
      else map_find d.map_ w := by
  unfold dictionary.replace adjust
  cases h : map_find d.map_ k with
  | none =>
    by_cases hk : k = w
    · subst hk; simp [h]
    · simp [hk]
  | some value =>
    cases value with
    | nil =>
      by_cases hk : k = w
      · subst hk; simp [h]
      · simp [hk]
    | cons v0 vs =>
      cases k with
      | nil =>
        by_cases hk : [] = w
        · subst hk; simp [h]
        · simp [hk]
      | cons k0 ks =>
        by_cases hu : d.loc_.isupper k0 = true
        · simp [hu, map_find_assign]
        · by_cases hk : k0 :: ks = w
          · subst hk; simp [hu, h]
          · simp [hu, hk]

theorem adjust_length (loc : locale) (v k : string) : (adjust loc v k).length = v.length := by
  unfold adjust
  cases v with
  | nil => rfl
  | cons v0 vs =>
    cases k with
    | nil => rfl
    | cons k0 ks => by_cases hu : loc.isupper k0 = true <;> simp [hu]

theorem replace_values_lt (d : dictionary) (n : Nat)
    (hv : ∀ k v, map_find d.map_ k = some v → v.length < n) (w : string) :
    ∀ k v, map_find (d.replace w).1.map_ k = some v → v.length < n := by
  intro k v h
  rw [replace_map_find] at h
  by_cases hk : w = k
  · rw [if_pos hk] at h
    cases hf : map_find d.map_ w with
    | none => rw [hf] at h; cases h
    | some u =>
      rw [hf] at h
      simp only [Option.map_some', Option.some.injEq] at h
      rw [← h, adjust_length]
      exact hv w u hf
  · rw [if_neg hk] at h
    exact hv k v h

theorem resolve_length_lt (d : dictionary) (n : Nat)
    (hv : ∀ k v, map_find d.map_ k = some v → v.length < n) (w : string)
    (hw : w.length < n) : (resolve d w).length < n := by
  rw [resolve_eq]
  cases hf : map_find d.map_ w with
  | none => exact hw
  | some u =>
    show (adjust d.loc_ u w).length < n
    rw [adjust_length]
    exact hv w u hf

theorem replace_unchanged_of_not_upper (d : dictionary) (w : string)
    (h : ∀ k0 ks, w = k0 :: ks → (map_find d.map_ w).isSome = true → d.loc_.isupper k0 = false) :
    (d.replace w).1 = d := by
  unfold dictionary.replace
  cases hf : map_find d.map_ w with
  | none => rfl
  | some value =>
    cases value with
    | nil => rfl
    | cons v0 vs =>
      cases w with
      | nil => rfl
      | cons k0 ks =>
        have := h k0 ks rfl (by rw [hf]; rfl)
        simp [this]

theorem replace_empty_word (d : dictionary) :
    d.replace [] = match map_find d.map_ [] with
      | none => (d, [], false)
      | some v => (d, v, true) := by
  unfold dictionary.replace
  cases hf : map_find d.map_ [] with
  | none => rfl
  | some value =>
    cases value with
    | nil => rfl
    | cons v0 vs => rfl

/-! ## Dictionaries built by `add` -/

theorem add_loc (d : dictionary) (k v : string) : (d.add k v).loc_ = d.loc_ := rfl

theorem foldl_add_loc (entries : List (string × string)) (d : dictionary) :
    (entries.foldl (fun d e => d.add e.1 e.2) d).loc_ = d.loc_ := by
  induction entries generalizing d with
  | nil => rfl
  | cons e es ih => rw [List.foldl_cons, ih, add_loc]

theorem build_loc (loc : locale) (uninit : Nat) (entries : List (string × string)) :
    (dictionary.build loc uninit entries).loc_ = loc := by
  unfold dictionary.build
  rw [foldl_add_loc]
  rfl

theorem fold_fold (loc : locale) (hlow : ∀ c, loc.tolower (loc.tolower c) = loc.tolower c)
    (w : string) : fold loc (fold loc w) = fold loc w := by
  unfold fold
  rw [List.map_map]
  apply List.map_congr_left
  intro c _
  exact hlow c

theorem foldl_add_keys_folded (loc : locale)
    (hlow : ∀ c, loc.tolower (loc.tolower c) = loc.tolower c)
    (entries : List (string × string)) (d : dictionary) (hd : d.loc_ = loc)
    (hk : ∀ k v, map_find d.map_ k = some v → fold loc k = k) :
    ∀ k v, map_find (entries.foldl (fun d e => d.add e.1 e.2) d).map_ k = some v →
      fold loc k = k := by
  induction entries generalizing d with
  | nil => exact hk
  | cons e es ih =>
    rw [List.foldl_cons]
    apply ih (d.add e.1 e.2) (by rw [add_loc, hd])
    intro k v h
    have h2 : map_find (map_assign d.map_ (fold loc e.1) e.2) k = some v := by
      rw [← hd]; exact h
    rw [map_find_assign] at h2
    by_cases hke : fold loc e.1 = k
    · rw [← hke]; exact fold_fold loc hlow e.1
    · rw [if_neg hke] at h2
      exact hk k v h2

theorem build_keys_folded (loc : locale)
    (hlow : ∀ c, loc.tolower (loc.tolower c) = loc.tolower c) (uninit : Nat)
    (entries : List (string × string)) (k v : string)
    (h : map_find (dictionary.build loc uninit entries).map_ k = some v) : fold loc k = k :=
  foldl_add_keys_folded loc hlow entries (dictionary.ctor loc uninit) rfl
    (fun k v h => by simp [dictionary.ctor, map_find] at h) k v h

theorem build_find_none (loc : locale)
    (hlow : ∀ c, loc.tolower (loc.tolower c) = loc.tolower c) (uninit : Nat)
    (entries : List (string × string)) (w : string)
    (h : map_find (dictionary.build loc uninit entries).map_ (fold loc w) = none) :
    map_find (dictionary.build loc uninit entries).map_ w = none := by
  cases hw : map_find (dictionary.build loc uninit entries).map_ w with
  | none => rfl
  | some v =>
    have := build_keys_folded loc hlow uninit entries w v hw
    rw [this, hw] at h
    cases h

theorem add_find (d : dictionary) (k v w : string) :
    map_find (d.add k v).map_ w = if fold d.loc_ k = w then some v else map_find d.map_ w :=
  map_find_assign d.map_ (fold d.loc_ k) v w

/-- In a dictionary built by `add` calls, `replace` leaves the dictionary as it was: a stored
key is its own folded form, so its first character is not uppercase. -/
theorem build_replace_unchanged (loc : locale)
    (hlow : ∀ c, loc.tolower (loc.tolower c) = loc.tolower c)
    (hlu : ∀ c, loc.isupper (loc.tolower c) = false) (uninit : Nat)
    (entries : List (string × string)) (w : string) :
    ((dictionary.build loc uninit entries).replace w).1 = dictionary.build loc uninit entries := by
  apply replace_unchanged_of_not_upper
  intro k0 ks hw hs
  cases hf : map_find (dictionary.build loc uninit entries).map_ w with
  | none => rw [hf] at hs; cases hs
  | some v =>
    have hfold := build_keys_folded loc hlow uninit entries w v hf
    rw [hw] at hfold
    simp only [fold, List.map_cons, List.cons.injEq] at hfold
    rw [build_loc, ← hfold.1]
    exact hlu k0

theorem foldl_add_find_nil (entries : List (string × string))
    (hne : ∀ e ∈ entries, e.1 ≠ []) (d : dictionary) (hd : map_find d.map_ [] = none) :
    map_find (entries.foldl (fun d e => d.add e.1 e.2) d).map_ [] = none := by
  induction entries generalizing d with
  | nil => exact hd
  | cons e es ih =>
    rw [List.foldl_cons]
    apply ih (fun x hx => hne x (List.mem_cons_of_mem _ hx))
    rw [add_find]
    have h1 : ¬ fold d.loc_ e.1 = [] := by
      intro h
      exact hne e (List.mem_cons_self _ _) (List.map_eq_nil_iff.mp h)
    rw [if_neg h1]
    exact hd

theorem build_find_nil (loc : locale) (uninit : Nat) (entries : List (string × string))
    (hne : ∀ e ∈ entries, e.1 ≠ []) :
    map_find (dictionary.build loc uninit entries).map_ [] = none :=
  foldl_add_find_nil entries hne (dictionary.ctor loc uninit) rfl

/-! ## Conversions between `char` and `int` -/

theorem int_of_char_range (c : Char) : -128 ≤ int_of_char c ∧ int_of_char c < 128 := by
  unfold int_of_char
  split <;> omega

theorem int_of_char_of_int (i : Int) (h1 : -128 ≤ i) (h2 : i < 128) :
    int_of_char (char_of_int i) = i := by
  unfold int_of_char char_of_int
  have hb : (i % 256).toNat < 256 := by omega
  rw [toNat_ofNat_small _ hb]
  split <;> omega

/-- A `char` that has gone through `int` and back gives the same `int` again. -/
theorem int_of_char_roundtrip (c : Char) :
    int_of_char (char_of_int (int_of_char c)) = int_of_char c :=
  int_of_char_of_int _ (int_of_char_range c).1 (int_of_char_range c).2

/-! ## The push adapter -/

theorem size_sub_eq (a b : Nat) (hb : b ≤ a) (ha : a < 2 ^ 64) : size_sub a b = a - b := by
  unfold size_sub
  rw [Nat.mod_eq_of_lt ha, Nat.mod_eq_of_lt (by omega : b < 2 ^ 64)]
  by_cases h0 : b = 0
  · subst h0
    rw [Nat.sub_zero, Nat.add_mod_right, Nat.mod_eq_of_lt ha, Nat.sub_zero]
  · have : a + (2 ^ 64 - b) = (a - b) + 2 ^ 64 := by omega
    rw [this, Nat.add_mod_right, Nat.mod_eq_of_lt (by omega)]

theorem char_range_drop (s : string) (off : Nat) (h1 : off ≤ s.length)
    (h2 : s.length < 2 ^ 63) : char_range s off (s.length - off) = some (s.drop off) := by
  unfold char_range
  have h3 : s.length - off < 2 ^ 63 ∧ off + (s.length - off) ≤ s.length := by omega
  rw [if_pos h3]
  congr 1
  apply List.take_of_length_le
  simp

theorem lt_npos (a : Nat) (h : a < 2 ^ 63) : a ≠ npos := by
  unfold npos
  have h64 : (2 : Nat) ^ 64 = 2 * 2 ^ 63 := by norm_num
  omega

theorem write_current_word_eq (f : dictionary_output_filter) (s : Sink)
    (h1 : f.off_ ≤ f.current_word_.length) (h2 : f.current_word_.length < 2 ^ 63) :
    f.write_current_word s =
      if s.count (f.current_word_.length - f.off_) = f.current_word_.length - f.off_ then
        some ({ f with current_word_ := [], off_ := npos },
          { s with received := s.received ++ f.current_word_.drop f.off_,
                   calls := s.calls + 1 }, true)
      else
        some ({ f with off_ := f.off_ + s.count (f.current_word_.length - f.off_) },
          { s with received := s.received ++ (f.current_word_.drop f.off_).take
                     (s.count (f.current_word_.length - f.off_)),
                   calls := s.calls + 1 }, false) := by
  have h64 : (2 : Nat) ^ 64 = 2 * 2 ^ 63 := by norm_num
  unfold dictionary_output_filter.write_current_word dictionary_output_filter.write_amt
  rw [size_sub_eq _ _ h1 (by omega)]
  dsimp only
  rw [char_range_drop _ _ h1 h2]
  simp only [Sink.write, List.length_drop]
  by_cases hr : s.count (f.current_word_.length - f.off_) = f.current_word_.length - f.off_
  · rw [if_pos hr, if_pos hr, hr]
    have : (f.current_word_.drop f.off_).take (f.current_word_.length - f.off_)
        = f.current_word_.drop f.off_ := by
      apply List.take_of_length_le
      simp
    rw [this]
  · rw [if_neg hr, if_neg hr]
    have : size_add f.off_ (s.count (f.current_word_.length - f.off_))
        = f.off_ + s.count (f.current_word_.length - f.off_) := by
      unfold size_add
      apply Nat.mod_eq_of_lt
      have : s.count (f.current_word_.length - f.off_) ≤ f.current_word_.length - f.off_ :=
        Nat.min_le_right _ _
      omega
    rw [this]

theorem put_accept_bad_cast (f : dictionary_output_filter) (c : Int)
    (h : f.dictionary_.getloc.isalpha c = outcome.bad_cast) :
    f.put_accept c = (f, outcome.bad_cast) := by
  unfold dictionary_output_filter.put_accept
  rw [h]

theorem put_accept_alpha (f : dictionary_output_filter) (c : Int)
    (h : f.dictionary_.getloc.isalpha c = outcome.ret true) :
    f.put_accept c
      = ({ f with current_word_ := f.current_word_ ++ [char_of_int c] }, outcome.ret true) := by
  unfold dictionary_output_filter.put_accept
  rw [h]
  rfl

theorem put_accept_other (f : dictionary_output_filter) (c : Int)
    (h : f.dictionary_.getloc.isalpha c = outcome.ret false) :
    f.put_accept c
      = ({ dictionary_ := (f.dictionary_.replace f.current_word_).1,
           current_word_ := (f.dictionary_.replace f.current_word_).2.1 ++ [char_of_int c],
           off_ := 0 }, outcome.ret true) := by
  unfold dictionary_output_filter.put_accept
  rw [h]
  rfl

/-- The last part of `put` returns `true` or throws; it never returns `false`. -/
theorem put_accept_not_false (f : dictionary_output_filter) (c : Int) :
    (f.put_accept c).2 ≠ outcome.ret false := by
  cases ha : f.dictionary_.getloc.isalpha c with
  | bad_cast => rw [put_accept_bad_cast f c ha]; intro h; cases h
  | ret a =>
    cases a with
    | true => rw [put_accept_alpha f c ha]; intro h; cases h
    | false => rw [put_accept_other f c ha]; intro h; cases h

theorem put_eq (f : dictionary_output_filter) (s : Sink) (c : Int) :
    f.put s c =
      match (if f.off_ ≠ npos then f.write_current_word s else some (f, s, true)) with
      | none => none
      | some (f1, s1, false) => some (f1, s1, outcome.ret false)
      | some (f1, s1, true) => some ((f1.put_accept c).1, s1, (f1.put_accept c).2) := by
  unfold dictionary_output_filter.put
  cases hw : (if f.off_ ≠ npos then f.write_current_word s else some (f, s, true)) with
  | none => rfl
  | some r =>
    obtain ⟨f1, s1, b⟩ := r
    cases b with
    | false => rfl
    | true =>
      show _ = some ((f1.put_accept c).1, s1, (f1.put_accept c).2)
      cases ha : f1.dictionary_.getloc.isalpha c with
      | bad_cast => rw [put_accept_bad_cast f1 c ha]; simp only [ha]
      | ret a =>
        cases a with
        | true => rw [put_accept_alpha f1 c ha]; simp only [ha]; rfl
        | false => rw [put_accept_other f1 c ha]; simp only [ha]; rfl

theorem put_no_pending (f : dictionary_output_filter) (s : Sink) (c : Int)
    (h : f.off_ = npos) :
    f.put s c = some ((f.put_accept c).1, s, (f.put_accept c).2) := by
  rw [put_eq]
  simp [h]

/-- With a word pending and a sink that takes every character, `put` writes the rest of the
word and goes on to its last part. -/
theorem put_pending_all (f : dictionary_output_filter) (s : Sink) (c : Int)
    (hs : s.accept = fun _ m => m)
    (h1 : f.off_ < f.current_word_.length) (h2 : f.current_word_.length < 2 ^ 63) :
    f.put s c = some ((dictionary_output_filter.put_accept
        { f with current_word_ := [], off_ := npos } c).1,
        { s with received := s.received ++ f.current_word_.drop f.off_,
                 calls := s.calls + 1 },
        (dictionary_output_filter.put_accept
          { f with current_word_ := [], off_ := npos } c).2) := by
  rw [put_eq, if_pos (lt_npos _ (by omega)), write_current_word_eq f s (by omega) h2]
  simp [Sink.count, hs]

/-- The last part of `put` in a state with no pending word keeps the states of `push_inv`,
however it ends. -/
theorem push_inv_put_accept (n : Nat) (d : dictionary) (cw : string) (c : Int) (rem : Nat)
    (hv : ∀ k v, map_find d.map_ k = some v → v.length < n)
    (hlen : cw.length + (rem + 1) < n) :
    push_inv n (dictionary_output_filter.put_accept
      { dictionary_ := d, current_word_ := cw, off_ := npos } c).1 rem := by
  cases ha : d.getloc.isalpha c with
  | bad_cast =>
    rw [put_accept_bad_cast _ c ha]
    exact ⟨hv, Or.inl ⟨rfl, by show cw.length + rem < n; omega⟩⟩
  | ret a =>
    cases a with
    | true =>
      rw [put_accept_alpha _ c ha]
      refine ⟨hv, Or.inl ⟨rfl, ?_⟩⟩
      show (cw ++ [char_of_int c]).length + rem < n
      simp only [List.length_append, List.length_singleton]
      omega
    | false =>
      rw [put_accept_other _ c ha]
      refine ⟨replace_values_lt d n hv cw, Or.inr ⟨rfl, by simp, ?_, by omega⟩⟩
      have := resolve_length_lt d n hv cw (by omega)
      unfold resolve at this
      show ((d.replace cw).2.1 ++ [char_of_int c]).length ≤ n
      simp only [List.length_append, List.length_singleton]
      omega

theorem put_retry_no_pending (n : Nat) (f : dictionary_output_filter) (s : Sink) (c : Char)
    (h : f.off_ = npos) :
    dictionary_output_filter.put_retry (n + 1) f s c
      = if (f.put_accept (int_of_char c)).2 = outcome.ret true
        then some ((f.put_accept (int_of_char c)).1, s) else none := by
  rw [dictionary_output_filter.put_retry, put_no_pending f s _ h]
  cases ha : f.dictionary_.getloc.isalpha (int_of_char c) with
  | bad_cast => rw [put_accept_bad_cast f _ ha]; rfl
  | ret a =>
    cases a with
    | true => rw [put_accept_alpha f _ ha]; rfl
    | false => rw [put_accept_other f _ ha]; rfl

theorem put_retry_all (n : Nat) (f : dictionary_output_filter) (s : Sink) (c : Char)
    (hs : s.accept = fun _ m => m)
    (h1 : f.off_ < f.current_word_.length) (h2 : f.current_word_.length < 2 ^ 63) :
    dictionary_output_filter.put_retry (n + 1) f s c
      = if (dictionary_output_filter.put_accept
            { f with current_word_ := [], off_ := npos } (int_of_char c)).2 = outcome.ret true
        then some ((dictionary_output_filter.put_accept
            { f with current_word_ := [], off_ := npos } (int_of_char c)).1,
          { s with received := s.received ++ f.current_word_.drop f.off_,
                   calls := s.calls + 1 })
        else none := by
  rw [dictionary_output_filter.put_retry, put_pending_all f s _ hs h1 h2]
  cases ha : f.dictionary_.getloc.isalpha (int_of_char c) with
  | bad_cast => rw [put_accept_bad_cast { f with current_word_ := [], off_ := npos } _ ha]; rfl
  | ret a =>
    cases a with
    | true => rw [put_accept_alpha { f with current_word_ := [], off_ := npos } _ ha]; rfl
    | false => rw [put_accept_other { f with current_word_ := [], off_ := npos } _ ha]; rfl

/-- The member `close` when a word is pending from offset `0`: one write, after which the
buffer is cleared whatever the sink has taken. -/
theorem close_pending (f : dictionary_output_filter) (s : Sink) (hoff : f.off_ = 0)
    (hne : f.current_word_ ≠ []) (hlt : f.current_word_.length < 2 ^ 63) :
    f.close s = some ({ f with current_word_ := [], off_ := npos },
      { s with received := s.received ++ f.current_word_.take (s.count f.current_word_.length),
               calls := s.calls + 1 }) := by
  have hnp : ¬ f.off_ = npos := by rw [hoff]; exact (lt_npos 0 (by norm_num)).symm ∘ Eq.symm
  unfold dictionary_output_filter.close
  simp only [hnp, if_false, hne, ne_eq, not_false_eq_true, if_true]
  rw [write_current_word_eq f s (by omega) hlt]
  simp only [hoff, Nat.sub_zero, List.drop_zero, Nat.zero_add]
  by_cases hc : s.count f.current_word_.length = f.current_word_.length
  · rw [if_pos hc, hc, List.take_length]
  · rw [if_neg hc]

theorem put_accept_state (n : Nat) (f : dictionary_output_filter) (c : Char) (k : Nat)
    (hoff : f.off_ = npos)
    (halpha : ∀ x ∈ f.current_word_,
      f.dictionary_.getloc.isalpha (int_of_char x) = outcome.ret true)
    (hv : ∀ key v, map_find f.dictionary_.map_ key = some v → v.length < n)
    (hlen : f.current_word_.length + (k + 1) < n) (hn : n < 2 ^ 63) :
    push_state (f.put_accept (int_of_char c)).1 ∧
      push_bound n (f.put_accept (int_of_char c)).1 k := by
  cases ha : f.dictionary_.getloc.isalpha (int_of_char c) with
  | bad_cast =>
    rw [put_accept_bad_cast f _ ha]
    exact ⟨Or.inl ⟨hoff, halpha⟩, hv,
      Or.inl ⟨hoff, by show f.current_word_.length + k < n; omega⟩⟩
  | ret a =>
    cases a with
    | true =>
      rw [put_accept_alpha f _ ha]
      refine ⟨Or.inl ⟨hoff, ?_⟩, hv, Or.inl ⟨hoff, ?_⟩⟩
      · intro x hx
        have hx2 : x ∈ f.current_word_ ++ [char_of_int (int_of_char c)] := hx
        rw [List.mem_append, List.mem_singleton] at hx2
        rcases hx2 with hx2 | hx2
        · exact halpha x hx2
        · rw [hx2, int_of_char_roundtrip]; exact ha
      · show (f.current_word_ ++ [char_of_int (int_of_char c)]).length + k < n
        simp only [List.length_append, List.length_singleton]
        omega
    | false =>
      rw [put_accept_other f _ ha]
      have hr := resolve_length_lt f.dictionary_ n hv f.current_word_ (by omega)
      unfold resolve at hr
      refine ⟨Or.inr ⟨?_, f.dictionary_, f.current_word_, char_of_int (int_of_char c),
        halpha, ?_, rfl, rfl⟩,
        replace_values_lt f.dictionary_ n hv f.current_word_, Or.inr ⟨?_, ?_, by omega⟩⟩
      · show 0 < ((f.dictionary_.replace f.current_word_).2.1
          ++ [char_of_int (int_of_char c)]).length
        simp
      · rw [int_of_char_roundtrip]; exact ha
      · show (0 : Nat) ≠ npos
        exact lt_npos 0 (by norm_num)
      · show ((f.dictionary_.replace f.current_word_).2.1
          ++ [char_of_int (int_of_char c)]).length ≤ n
        simp only [List.length_append, List.length_singleton]
        omega

/-- One `put` call, with any character and any sink, ends by returning or by throwing, and
keeps the two kinds of state. -/
theorem put_keeps_state (n : Nat) (hn : n < 2 ^ 63) (f : dictionary_output_filter) (k : Nat)
    (hst : push_state f) (hb : push_bound n f (k + 1)) (s : Sink) (c : Char) :
    ∃ f1 s1 b, f.put s (int_of_char c) = some (f1, s1, b) ∧ push_state f1 ∧
      push_bound n f1 k := by
  obtain ⟨hv, hcase⟩ := hb
  rcases hst with ⟨hoff, halpha⟩ | ⟨hlt, e, w, c0, hw, hc0, hd, hcw⟩
  · rcases hcase with ⟨_, hlen⟩ | ⟨hne, _⟩
    · rw [put_no_pending f s _ hoff]
      exact ⟨_, _, _, rfl, put_accept_state n f c k hoff halpha hv hlen hn⟩
    · exact absurd hoff hne
  · have hlen : f.current_word_.length ≤ n ∧ k + 1 < n := by
      rcases hcase with ⟨hoff, _⟩ | ⟨_, h1, h2⟩
      · rw [hoff] at hlt
        have : f.current_word_.length + (k + 1) < n := by assumption
        have h64 : (2 : Nat) ^ 64 = 2 * 2 ^ 63 := by norm_num
        unfold npos at hlt
        omega
      · exact ⟨h1, h2⟩
    have h2 : f.current_word_.length < 2 ^ 63 := by omega
    rw [put_eq, if_pos (lt_npos _ (by omega)), write_current_word_eq f s (by omega) h2]
    by_cases hr : s.count (f.current_word_.length - f.off_) = f.current_word_.length - f.off_
    · rw [if_pos hr]
      have := put_accept_state n
        { f with current_word_ := [], off_ := npos } c k rfl
        (fun x hx => (by cases hx)) hv (by simpa using hlen.2) hn
      exact ⟨_, _, _, rfl, this⟩
    · rw [if_neg hr]
      have hle : s.count (f.current_word_.length - f.off_)
          ≤ f.current_word_.length - f.off_ := Nat.min_le_right _ _
      refine ⟨_, _, _, rfl, Or.inr ⟨?_, e, w, c0, hw, hc0, hd, hcw⟩, hv, Or.inr ⟨?_, hlen.1, ?_⟩⟩
      · show f.off_ + s.count (f.current_word_.length - f.off_) < f.current_word_.length
        omega
      · show f.off_ + s.count (f.current_word_.length - f.off_) ≠ npos
        exact lt_npos _ (by omega)
      · omega

theorem put_calls_keep_state (n : Nat) (hn : n < 2 ^ 63) :
    ∀ (calls : List (Sink × Char)) (f : dictionary_output_filter),
      push_state f → push_bound n f calls.length →
      ∃ g, dictionary_output_filter.put_calls f calls = some g ∧
        push_state g ∧ push_bound n g 0 := by
  intro calls
  induction calls with
  | nil => intro f hst hb; exact ⟨f, rfl, hst, hb⟩
  | cons p ps ih =>
    intro f hst hb
    obtain ⟨s, c⟩ := p
    obtain ⟨f1, s1, b, e1, hst1, hb1⟩ := put_keeps_state n hn f ps.length hst hb s c
    obtain ⟨g, e2, hst2, hb2⟩ := ih f1 hst1 hb1
    refine ⟨g, ?_, hst2, hb2⟩
    rw [dictionary_output_filter.put_calls, e1]
    exact e2

theorem ctor_state (n : Nat) (d : dictionary) (k : Nat)
    (hv : ∀ key v, map_find d.map_ key = some v → v.length < n) (hk : k < n) :
    push_state (dictionary_output_filter.ctor d) ∧
      push_bound n (dictionary_output_filter.ctor d) k :=
  ⟨Or.inl ⟨rfl, fun x hx => by cases hx⟩, hv, Or.inl ⟨rfl, by
    simpa [dictionary_output_filter.ctor] using hk⟩⟩

/-- In a state with a word pending inside the buffer, the write that `put` issues offers the
characters from `off_` to the end of the buffer. -/
theorem pending_write_range (f : dictionary_output_filter)
    (h1 : f.off_ < f.current_word_.length) (h2 : f.current_word_.length < 2 ^ 63) :
    0 < f.write_amt ∧ f.off_ + f.write_amt = f.current_word_.length ∧
      char_range f.current_word_ f.off_ f.write_amt = some (f.current_word_.drop f.off_) := by
  have h64 : (2 : Nat) ^ 64 = 2 * 2 ^ 63 := by norm_num
  have ha : f.write_amt = f.current_word_.length - f.off_ := by
    unfold dictionary_output_filter.write_amt
    exact size_sub_eq _ _ (by omega) (by omega)
  rw [ha]
  exact ⟨by omega, by omega, char_range_drop _ _ (by omega) h2⟩

/-- The result of `put` in a state of one of the two kinds. -/
theorem put_result (f : dictionary_output_filter) (s : Sink) (c : Int)
    (h : f.off_ = npos ∨ (f.off_ < f.current_word_.length ∧ f.current_word_.length < 2 ^ 63)) :
    f.put s c =
      if f.off_ ≠ npos ∧ s.count (f.current_word_.length - f.off_)
          < f.current_word_.length - f.off_ then
        some ({ f with off_ := f.off_ + s.count (f.current_word_.length - f.off_) },
          { s with received := s.received ++ (f.current_word_.drop f.off_).take
                     (s.count (f.current_word_.length - f.off_)),
                   calls := s.calls + 1 }, outcome.ret false)
      else if f.off_ ≠ npos then
        some ((dictionary_output_filter.put_accept
            { f with current_word_ := [], off_ := npos } c).1,
          { s with received := s.received ++ f.current_word_.drop f.off_,
                   calls := s.calls + 1 },
          (dictionary_output_filter.put_accept
            { f with current_word_ := [], off_ := npos } c).2)
      else some ((f.put_accept c).1, s, (f.put_accept c).2) := by
  have hle : s.count (f.current_word_.length - f.off_)
      ≤ f.current_word_.length - f.off_ := Nat.min_le_right _ _
  by_cases hoff : f.off_ = npos
  · rw [put_no_pending f s c hoff]
    simp [hoff]
  · rcases h with h | ⟨h1, h2⟩
    · exact absurd h hoff
    · rw [put_eq, if_pos hoff, write_current_word_eq f s (by omega) h2]
      by_cases hr : s.count (f.current_word_.length - f.off_)
          = f.current_word_.length - f.off_
      · rw [if_pos hr, if_neg (by omega), if_pos hoff]
      · rw [if_neg hr, if_pos ⟨hoff, by omega⟩]

/-- Against any sink, `put` retried until it returns `true` has written the rest of the
pending text, no more and no less, and leaves the filter as after a `put` that found the
pending word written. -/
theorem put_retry_any (c : Char) (m : Nat) :
    ∀ (f g : dictionary_output_filter) (s t : Sink),
      f.off_ < f.current_word_.length → f.current_word_.length < 2 ^ 63 →
      dictionary_output_filter.put_retry m f s c = some (g, t) →
      g = (dictionary_output_filter.put_accept
            { f with current_word_ := [], off_ := npos } (int_of_char c)).1 ∧
        (dictionary_output_filter.put_accept
            { f with current_word_ := [], off_ := npos } (int_of_char c)).2
          = outcome.ret true ∧
        t.received = s.received ++ f.current_word_.drop f.off_ := by
  induction m with
  | zero => intro f g s t _ _ h; simp [dictionary_output_filter.put_retry] at h
  | succ m ih =>
    intro f g s t h1 h2 h
    have hle : s.count (f.current_word_.length - f.off_)
        ≤ f.current_word_.length - f.off_ := Nat.min_le_right _ _
    rw [dictionary_output_filter.put_retry, put_result f s _ (Or.inr ⟨h1, h2⟩)] at h
    have hoff : f.off_ ≠ npos := lt_npos _ (by omega)
    by_cases hr : s.count (f.current_word_.length - f.off_)
        < f.current_word_.length - f.off_
    · rw [if_pos ⟨hoff, hr⟩] at h
      obtain ⟨e1, e2, e3⟩ :=
        ih { f with off_ := f.off_ + s.count (f.current_word_.length - f.off_) }
        g _ t (by show f.off_ + s.count (f.current_word_.length - f.off_)
                    < f.current_word_.length; omega) h2 h
      refine ⟨e1, e2, ?_⟩
      rw [e3]
      show (s.received ++ (f.current_word_.drop f.off_).take
          (s.count (f.current_word_.length - f.off_)))
          ++ f.current_word_.drop (f.off_ + s.count (f.current_word_.length - f.off_))
        = s.received ++ f.current_word_.drop f.off_
      rw [List.append_assoc]
      congr 1
      have : f.current_word_.drop (f.off_ + s.count (f.current_word_.length - f.off_))
          = (f.current_word_.drop f.off_).drop
              (s.count (f.current_word_.length - f.off_)) := by
        rw [List.drop_drop, Nat.add_comm]
      rw [this, List.take_append_drop]
    · rw [if_neg (fun hh => hr hh.2), if_pos hoff] at h
      cases ha : f.dictionary_.getloc.isalpha (int_of_char c) with
      | bad_cast =>
        rw [put_accept_bad_cast { f with current_word_ := [], off_ := npos } _ ha] at h
        cases h
      | ret a =>
        cases a with
        | true =>
          rw [put_accept_alpha { f with current_word_ := [], off_ := npos } _ ha] at h ⊢
          simp only [Option.some.injEq, Prod.mk.injEq] at h
          exact ⟨h.1.symm, rfl, by rw [← h.2]⟩
        | false =>
          rw [put_accept_other { f with current_word_ := [], off_ := npos } _ ha] at h ⊢
          simp only [Option.some.injEq, Prod.mk.injEq] at h
          exact ⟨h.1.symm, rfl, by rw [← h.2]⟩

/-- The `put` phase against any sink, every `put` retried until it returns `true`: when all
have returned `true`, the filter state and the text received are those of the `put` phase
against a sink that takes everything. -/
theorem put_all_any_eq_all (n : Nat) (hn : n < 2 ^ 63) (m : Nat) :
    ∀ (input : string) (f g : dictionary_output_filter) (s t sf : Sink),
      sf.accept = (fun _ k => k) → s.received = sf.received →
      push_inv n f input.length →
      dictionary_output_filter.put_all m f s input = some (g, t) →
      ∃ tf, dictionary_output_filter.put_all 1 f sf input = some (g, tf) ∧
        t.received = tf.received := by
  intro input
  induction input with
  | nil =>
    intro f g s t sf _ hr _ h
    simp only [dictionary_output_filter.put_all, Option.some.injEq, Prod.mk.injEq] at h
    exact ⟨sf, by rw [← h.1]; rfl, by rw [← h.2]; exact hr⟩
  | cons c rest ih =>
    intro f g s t sf hf hr hinv h
    obtain ⟨hv, hcase⟩ := hinv
    rw [dictionary_output_filter.put_all] at h
    cases hp : dictionary_output_filter.put_retry m f s c with
    | none => rw [hp] at h; cases h
    | some r =>
      obtain ⟨f1, s1⟩ := r
      rw [hp] at h
      rcases hcase with ⟨hoff, hlen⟩ | ⟨hoff, hne, hlen, hrem⟩
      · obtain ⟨m1, rfl⟩ : ∃ m1, m = m1 + 1 := by
          cases m with
          | zero => simp [dictionary_output_filter.put_retry] at hp
          | succ m1 => exact ⟨m1, rfl⟩
        rw [put_retry_no_pending m1 f s c hoff] at hp
        by_cases hret : (f.put_accept (int_of_char c)).2 = outcome.ret true
        · rw [if_pos hret] at hp
          simp only [Option.some.injEq, Prod.mk.injEq] at hp
          have hinv2 : push_inv n (f.put_accept (int_of_char c)).1 rest.length := by
            have := push_inv_put_accept n f.dictionary_ f.current_word_ (int_of_char c)
              rest.length hv (by simpa using hlen)
            rw [← hoff] at this
            exact this
          rw [← hp.1, ← hp.2] at h
          obtain ⟨tf, e1, e2⟩ := ih (f.put_accept (int_of_char c)).1 g s t sf hf hr hinv2 h
          refine ⟨tf, ?_, e2⟩
          rw [dictionary_output_filter.put_all, put_retry_no_pending 0 f sf c hoff,
            if_pos hret]
          exact e1
        · rw [if_neg hret] at hp
          cases hp
      · have hpos : f.off_ < f.current_word_.length := by
          rw [hoff]
          exact List.length_pos.mpr hne
        have hlt : f.current_word_.length < 2 ^ 63 := by omega
        obtain ⟨r1, r2, r3⟩ := put_retry_any c m f f1 s s1 hpos hlt hp
        have hinv2 : push_inv n (dictionary_output_filter.put_accept
            { f with current_word_ := [], off_ := npos } (int_of_char c)).1 rest.length :=
          push_inv_put_accept n f.dictionary_ [] (int_of_char c) rest.length hv
            (by simpa using hrem)
        rw [r1] at h
        obtain ⟨tf, e1, e2⟩ := ih _ g s1 t
          { sf with received := sf.received ++ f.current_word_.drop f.off_,
                    calls := sf.calls + 1 }
          hf (by rw [r3, hr]) hinv2 h
        refine ⟨tf, ?_, e2⟩
        rw [dictionary_output_filter.put_all, put_retry_all 0 f sf c hf hpos hlt, if_pos r2]
        exact e1

/-- The last part of `put` leaves the locale of the dictionary as it was. -/
theorem put_accept_loc (f : dictionary_output_filter) (c : Int) :
    (f.put_accept c).1.dictionary_.loc_ = f.dictionary_.loc_ := by
  cases ha : f.dictionary_.getloc.isalpha c with
  | bad_cast => rw [put_accept_bad_cast f c ha]
  | ret a =>
    cases a with
    | true => rw [put_accept_alpha f c ha]
    | false =>
      rw [put_accept_other f c ha]
      exact replace_loc _ _

/-- In a locale that has a facet `ctype<int>`, the last part of `put` returns `true`. -/
theorem put_accept_ret (f : dictionary_output_filter) (c : Int)
    (h : f.dictionary_.loc_.ctype_int ≠ none) : (f.put_accept c).2 = outcome.ret true := by
  cases ha : f.dictionary_.getloc.isalpha c with
  | bad_cast =>
    exfalso
    unfold locale.isalpha dictionary.getloc at ha
    cases hc : f.dictionary_.loc_.ctype_int with
    | none => exact h hc
    | some A => rw [hc] at ha; cases ha
  | ret a =>
    cases a with
    | true => rw [put_accept_alpha f c ha]
    | false => rw [put_accept_other f c ha]

/-- Against a sink that takes at least one character whenever some are offered, and in a
locale that has a facet `ctype<int>`, `put` retried `m` times returns `true` when the pending
text is no longer than `m`. -/
theorem put_retry_progress (c : Char) (m : Nat) :
    ∀ (f : dictionary_output_filter) (s : Sink), (∀ i k, 0 < k → 0 < s.accept i k) →
      f.dictionary_.loc_.ctype_int ≠ none →
      f.off_ < f.current_word_.length → f.current_word_.length < 2 ^ 63 →
      f.current_word_.length - f.off_ ≤ m →
      ∃ g t, dictionary_output_filter.put_retry m f s c = some (g, t) ∧
        t.accept = s.accept := by
  induction m with
  | zero => intro f s _ _ h1 _ h3; omega
  | succ m ih =>
    intro f s hs hfac h1 h2 h3
    have hle : s.count (f.current_word_.length - f.off_)
        ≤ f.current_word_.length - f.off_ := Nat.min_le_right _ _
    have hpos : 0 < s.count (f.current_word_.length - f.off_) := by
      unfold Sink.count
      exact Nat.lt_min.mpr ⟨hs _ _ (by omega), by omega⟩
    have hoff : f.off_ ≠ npos := lt_npos _ (by omega)
    rw [dictionary_output_filter.put_retry, put_result f s _ (Or.inr ⟨h1, h2⟩)]
    by_cases hr : s.count (f.current_word_.length - f.off_)
        < f.current_word_.length - f.off_
    · rw [if_pos ⟨hoff, hr⟩]
      exact ih { f with off_ := f.off_ + s.count (f.current_word_.length - f.off_) }
        { s with received := s.received ++ (f.current_word_.drop f.off_).take
                   (s.count (f.current_word_.length - f.off_)),
                 calls := s.calls + 1 } hs hfac
        (by show f.off_ + s.count (f.current_word_.length - f.off_)
              < f.current_word_.length; omega) h2
        (by show f.current_word_.length
              - (f.off_ + s.count (f.current_word_.length - f.off_)) ≤ m; omega)
    · rw [if_neg (fun hh => hr hh.2), if_pos hoff,
        put_accept_ret { f with current_word_ := [], off_ := npos } (int_of_char c) hfac]
      exact ⟨_, _, rfl, rfl⟩

theorem put_all_progress (n : Nat) (hn : n < 2 ^ 63) :
    ∀ (input : string) (f : dictionary_output_filter) (s : Sink),
      (∀ i k, 0 < k → 0 < s.accept i k) → f.dictionary_.loc_.ctype_int ≠ none →
      push_inv n f input.length →
      ∃ g t, dictionary_output_filter.put_all n f s input = some (g, t) := by
  intro input
  induction input with
  | nil => intro f s _ _ _; exact ⟨f, s, rfl⟩
  | cons c rest ih =>
    intro f s hs hfac hinv
    obtain ⟨hv, hcase⟩ := hinv
    rcases hcase with ⟨hoff, hlen⟩ | ⟨hoff, hne, hlen, hrem⟩
    · obtain ⟨m, rfl⟩ : ∃ m, n = m + 1 :=
        ⟨n - 1, by simp only [List.length_cons] at hlen; omega⟩
      have hinv2 : push_inv (m + 1) (f.put_accept (int_of_char c)).1 rest.length := by
        have := push_inv_put_accept (m + 1) f.dictionary_ f.current_word_ (int_of_char c)
          rest.length hv (by simpa using hlen)
        rw [← hoff] at this
        exact this
      obtain ⟨g, t, e⟩ := ih (f.put_accept (int_of_char c)).1 s hs
        (by rw [put_accept_loc]; exact hfac) hinv2
      refine ⟨g, t, ?_⟩
      rw [dictionary_output_filter.put_all, put_retry_no_pending m f s c hoff,
        if_pos (put_accept_ret f _ hfac)]
      exact e
    · have hpos : f.off_ < f.current_word_.length := by
        rw [hoff]
        exact List.length_pos.mpr hne
      have hlt : f.current_word_.length < 2 ^ 63 := by omega
      obtain ⟨f1, s1, e1, e2⟩ := put_retry_progress c n f s hs hfac hpos hlt (by omega)
      have hf1 := (put_retry_any c n f f1 s s1 hpos hlt e1).1
      have hinv2 : push_inv n f1 rest.length := by
        rw [hf1]
        exact push_inv_put_accept n f.dictionary_ [] (int_of_char c) rest.length hv
          (by simpa using hrem)
      obtain ⟨g, t, e⟩ := ih f1 s1 (by rw [e2]; exact hs)
        (by rw [hf1, put_accept_loc]; exact hfac) hinv2
      refine ⟨g, t, ?_⟩
      rw [dictionary_output_filter.put_all, e1]
      exact e

/-! ## The pull adapter -/

theorem to_int_type_nonneg (ch : Char) : 0 ≤ to_int_type ch := by
  unfold to_int_type
  omega

/-- The `while (true)` loop of `get`, written with the call `iostreams::get(src)` and the
tests of the source: `c == WOULD_BLOCK`, `c == EOF`, `std::isalpha(c, loc)`. -/
theorem get_loop_eq (f : dictionary_input_filter) (src : Source) :
    f.get_loop src.reads src.pending =
      if src.get.1 = WOULD_BLOCK then (f, src.get.2, outcome.ret false)
      else if src.get.1 = EOF then
        ({ dictionary_ := (f.dictionary_.replace f.current_word_).1,
           current_word_ := (f.dictionary_.replace f.current_word_).2.1,
           off_ := 0, eof_ := true }, src.get.2, outcome.ret true)
      else
        match f.dictionary_.getloc.isalpha src.get.1 with
        | outcome.bad_cast => (f, src.get.2, outcome.bad_cast)
        | outcome.ret alpha =>
          if !alpha then
            ({ dictionary_ := (f.dictionary_.replace f.current_word_).1,
               current_word_ := (f.dictionary_.replace f.current_word_).2.1
                 ++ [char_of_int src.get.1],
               off_ := 0, eof_ := f.eof_ }, src.get.2, outcome.ret true)
          else
            dictionary_input_filter.get_loop
              { f with current_word_ := f.current_word_ ++ [char_of_int src.get.1] }
              src.get.2.reads src.get.2.pending := by
  obtain ⟨pending, reads⟩ := src
  cases pending with
  | nil =>
    have h1 : ¬ (EOF = WOULD_BLOCK) := by decide
    simp only [Source.get, dictionary_input_filter.get_loop, if_neg h1, if_true]
  | cons e rest =>
    cases e with
    | none => simp only [Source.get, dictionary_input_filter.get_loop, if_true]
    | some ch =>
      have h0 := to_int_type_nonneg ch
      have h1 : ¬ (to_int_type ch = WOULD_BLOCK) := by
        intro h; rw [h] at h0; revert h0; decide
      have h2 : ¬ (to_int_type ch = EOF) := by
        intro h; rw [h] at h0; revert h0; decide
      simp only [Source.get, dictionary_input_filter.get_loop, if_neg h1, if_neg h2]

theorem get_at_eof (depth : Nat) (f : dictionary_input_filter) (src : Source)
    (he : f.eof_ = true) :
    dictionary_input_filter.get (depth + 1) f src = some (outcome.ret EOF, f, src) := by
  rw [dictionary_input_filter.get, if_pos he]

theorem get_times_at_eof (depth : Nat) (f : dictionary_input_filter) (src : Source)
    (he : f.eof_ = true) (k : Nat) :
    dictionary_input_filter.get_times (depth + 1) k f src
      = some (List.replicate k (outcome.ret EOF), f, src) := by
  induction k with
  | zero => rfl
  | succ k ih =>
    rw [dictionary_input_filter.get_times, get_at_eof depth f src he]
    simp only [ih, Option.map_some', List.replicate_succ]

/-- The loop of `get` on a source that delivers alphabetic characters and then reports end
of input: the characters are appended to the buffer, the buffer is resolved, `off_` is set
to `0` and `eof_` is set. -/
theorem get_loop_alpha_run (w : string) :
    ∀ (f : dictionary_input_filter) (reads : Nat),
      (∀ ch ∈ w, f.dictionary_.getloc.isalpha (to_int_type ch) = outcome.ret true) →
      f.get_loop reads (w.map some) =
        ({ dictionary_ := (f.dictionary_.replace
              (f.current_word_ ++ w.map (fun ch => char_of_int (to_int_type ch)))).1,
           current_word_ := (f.dictionary_.replace
              (f.current_word_ ++ w.map (fun ch => char_of_int (to_int_type ch)))).2.1,
           off_ := 0, eof_ := true },
          { pending := [], reads := reads + w.length + 1 }, outcome.ret true) := by
  induction w with
  | nil =>
    intro f reads _
    simp only [List.map_nil, dictionary_input_filter.get_loop, List.append_nil,
      List.length_nil, Nat.add_zero]
  | cons ch rest ih =>
    intro f reads hw
    have h1 := hw ch (List.mem_cons_self _ _)
    simp only [List.map_cons, dictionary_input_filter.get_loop, h1, Bool.not_true,
      Bool.false_eq_true, if_false]
    rw [ih { f with current_word_ := f.current_word_ ++ [char_of_int (to_int_type ch)] }
      (reads + 1) (fun x hx => hw x (List.mem_cons_of_mem _ hx))]
    simp only [List.append_assoc, List.singleton_append, List.length_cons]
    have : reads + 1 + rest.length + 1 = reads + (rest.length + 1) + 1 := by omega
    rw [this]

/-! ## The claims -/

/-- C1. With the single entry `"cat" -> "dog"` in the default locale of `dictionary`,
`std::locale::classic()`, `do_filter` on the input `"The cat sat"` reads `T`, calls
`std::isalpha` with the `int` it has read, and is left through `std::bad_cast`, the locale
having no facet `ctype<int>`: nothing has been written. With the same entry in a locale that
has such a facet, `do_filter` writes `"The dog sat"`. -/
theorem C1_do_filter_throws_in_classic_locale :
    locale.classic.isalpha (to_int_type 'T') = outcome.bad_cast ∧
      blocking_output cat_dog "The cat sat".toList = ([], outcome.bad_cast) ∧
      blocking_output cat_dog_int "The cat sat".toList
        = ("The dog sat".toList, outcome.ret ()) := by
  refine ⟨by decide, by decide, by decide⟩

/-- C2. With the empty dictionary in the default locale, `do_filter` on the input `"a, b."`
is left through `std::bad_cast` at the first character, and nothing has been written. With
the empty dictionary in a locale that has a facet `ctype<int>`, the input is written
unchanged. -/
theorem C2_do_filter_throws_on_first_character :
    blocking_output empty_dictionary "a, b.".toList = ([], outcome.bad_cast) ∧
      (dictionary_stdio_filter.do_filter
        { dictionary_ := empty_dictionary, current_word_ := [] }
        "a, b.".toList []).1.current_word_ = [] ∧
      blocking_output empty_dictionary_int "a, b.".toList
        = ("a, b.".toList, outcome.ret ()) := by
  refine ⟨by decide, by decide, by decide⟩

/-- C3. With the entry `"cat" -> "dog"`, `replace` leaves the words `"Cat"` and `"CAT"` as
they are and returns `false`, though both fold to the stored key `"cat"` and begin with an
uppercase letter: the look-up is made with the word as given. The word `"cat"` is replaced
by `"dog"`. In a locale that has a facet `ctype<int>`, the inputs `"Cat"` and `"CAT"` come
out of the blocking adapter unchanged. -/
theorem C3_capitalised_word_not_replaced :
    cat_dog.replace "Cat".toList = (cat_dog, "Cat".toList, false) ∧
      cat_dog.replace "CAT".toList = (cat_dog, "CAT".toList, false) ∧
      fold locale.classic "Cat".toList = "cat".toList ∧
      fold locale.classic "CAT".toList = "cat".toList ∧
      locale.classic.isupper 'C' = true ∧
      (cat_dog.replace "cat".toList).2 = ("dog".toList, true) ∧
      blocking_output cat_dog_int "Cat".toList = ("Cat".toList, outcome.ret ()) ∧
      blocking_output cat_dog_int "CAT".toList = ("CAT".toList, outcome.ret ()) ∧
      blocking_output cat_dog_int "cat".toList = ("dog".toList, outcome.ret ()) := by
  refine ⟨?_, ?_, by decide, by decide, by decide, by decide, by decide, by decide,
    by decide⟩
  · exact replace_not_found cat_dog _ (by decide)
  · exact replace_not_found cat_dog _ (by decide)

/-- C4. With the entry `"cat" -> "dog"`, the case-folded form of `"Cat"` is a stored key and
`replace("Cat")` returns `false`: the look-up uses the word as given, not the folded copy. -/
theorem C4_lookup_not_case_folded :
    map_find cat_dog.map_ (fold locale.classic "Cat".toList) = some "dog".toList ∧
      cat_dog.tolower "Cat".toList = "cat".toList ∧
      map_find cat_dog.map_ "Cat".toList = none ∧
      (cat_dog.replace "Cat".toList).2.2 = false := by
  refine ⟨by decide, by decide, by decide, by decide⟩

/-- C5. No-match leaves the word alone: in a dictionary built by `add` calls (in a locale
whose `tolower` is idempotent, as in the classic locale), a word whose case-folded form is
not a stored key makes `replace` return `false` with the word, and the dictionary,
unchanged. -/
theorem C5_replace_no_match (loc : locale)
    (hlow : ∀ c, loc.tolower (loc.tolower c) = loc.tolower c) (uninit : Nat)
    (entries : List (string × string)) (w : string)
    (h : map_find (dictionary.build loc uninit entries).map_ (fold loc w) = none) :
    (dictionary.build loc uninit entries).replace w =
      (dictionary.build loc uninit entries, w, false) :=
  replace_not_found _ w (build_find_none loc hlow uninit entries w h)

/-- C5 at the dictionary `"cat" -> "dog"` and the word `"Sat"`. -/
theorem C5_replace_no_match_witness :
    (∀ c, locale.classic.tolower (locale.classic.tolower c) = locale.classic.tolower c) ∧
      map_find cat_dog.map_ (fold locale.classic "Sat".toList) = none ∧
      cat_dog.replace "Sat".toList = (cat_dog, "Sat".toList, false) :=
  ⟨classic_tolower_idem, by decide,
    C5_replace_no_match locale.classic classic_tolower_idem 0
      [("cat".toList, "dog".toList)] "Sat".toList (by decide)⟩

/-- C6. With the empty dictionary, in a locale that has a facet `ctype<int>`, and the input
`"a"`, the blocking adapter writes `"a"`. In the push adapter the `put` call leaves the
buffer `"a"` with `off_ = npos` and nothing written; `close` then asks for
`size() - npos = 2` characters from `data() + npos`, a range that is not inside
`current_word_`. -/
theorem C6_push_close_reads_outside_word :
    blocking_output empty_dictionary_int "a".toList = ("a".toList, outcome.ret ()) ∧
      (dictionary_output_filter.put_all 1 (dictionary_output_filter.ctor empty_dictionary_int)
        Sink.all "a".toList).map (fun r => (r.1.current_word_, r.1.off_, r.2.received))
        = some ("a".toList, npos, []) ∧
      dictionary_output_filter.write_amt
        { dictionary_ := empty_dictionary_int, current_word_ := "a".toList, off_ := npos }
        = 2 ∧
      char_range "a".toList npos 2 = none ∧
      dictionary_output_filter.push_output empty_dictionary_int Sink.all 1 1 "a".toList
        = none := by
  refine ⟨by decide, by decide, by decide, by decide, by decide⟩

/-- C7. With the empty dictionary, in a locale that has a facet `ctype<int>`, and the input
`"a"`, the blocking adapter writes `"a"`, while the first `get` of the pull adapter reads `a`
and end of input, sets `eof_`, and its nested call returns `EOF`: the resolved word `"a"` is
still in `current_word_`, unread from offset `0`, and the next call returns `EOF` again. -/
theorem C7_pull_drops_final_word :
    blocking_output empty_dictionary_int "a".toList = ("a".toList, outcome.ret ()) ∧
      (dictionary_input_filter.get 2 (dictionary_input_filter.ctor empty_dictionary_int)
        (Source.of_string "a".toList)).map
          (fun r => (r.1, r.2.1.current_word_, r.2.1.off_, r.2.1.eof_, r.2.2))
        = some (outcome.ret EOF, "a".toList, 0, true, { pending := [], reads := 2 }) ∧
      (dictionary_input_filter.get_times 2 2
        (dictionary_input_filter.ctor empty_dictionary_int)
        (Source.of_string "a".toList)).map (fun r => (r.1, r.2.1.current_word_))
        = some ([outcome.ret EOF, outcome.ret EOF], "a".toList) := by
  refine ⟨by decide, by decide, by decide⟩

/-- C8. With the empty dictionary, in a locale that has a facet `ctype<int>`, the input
`"a "` and a sink that takes one character per call: both `put` calls return `true` at the
first try and leave `"a "` pending from offset `0`; `close` makes one write, of which the
sink takes `a`, and clears the buffer, so that after `close`, called once, twice or three
times, the sink has received `"a"`, where a sink that takes everything receives `"a "`. A
`put` call in the same state keeps the buffer and moves `off_` to `1` for the next try. -/
theorem C8_close_discards_partial_write :
    (dictionary_output_filter.put_all 1 (dictionary_output_filter.ctor empty_dictionary_int)
        (Sink.at_most 1) "a ".toList).map
          (fun r => (r.1.current_word_, r.1.off_, r.2.received))
        = some ("a ".toList, 0, []) ∧
      (dictionary_output_filter.close
        { dictionary_ := empty_dictionary_int, current_word_ := "a ".toList, off_ := 0 }
        (Sink.at_most 1)).map (fun r => (r.1.current_word_, r.1.off_, r.2.received))
        = some ([], npos, "a".toList) ∧
      (dictionary_output_filter.put
        { dictionary_ := empty_dictionary_int, current_word_ := "a ".toList, off_ := 0 }
        (Sink.at_most 1) (int_of_char 'b')).map
          (fun r => (r.1.current_word_, r.1.off_, r.2.1.received, r.2.2))
        = some ("a ".toList, 1, "a".toList, outcome.ret false) ∧
      dictionary_output_filter.push_output empty_dictionary_int (Sink.at_most 1) 1 1
        "a ".toList = some "a".toList ∧
      dictionary_output_filter.push_output empty_dictionary_int (Sink.at_most 1) 1 2
        "a ".toList = some "a".toList ∧
      dictionary_output_filter.push_output empty_dictionary_int (Sink.at_most 1) 1 3
        "a ".toList = some "a".toList ∧
      dictionary_output_filter.push_output empty_dictionary_int Sink.all 1 1 "a ".toList
        = some "a ".toList := by
  refine ⟨by decide, by decide, by decide, by decide, by decide, by decide, by decide⟩

/-- C9. With the empty dictionary, in a locale that has a facet `ctype<int>`, and the word
`"a"`: after `put('a')` on a fresh filter the buffer is `"a"` and `off_` is `npos`; `close`
resolves the word to `"a"` and then computes the count `size() - off_ = 1 - npos = 2`
(modulo `2^64`) for a write starting at `data() + npos`, not the count `1` from offset `0`,
and that range is not inside `current_word_`. -/
theorem C9_close_write_starts_at_npos :
    (dictionary_output_filter.put (dictionary_output_filter.ctor empty_dictionary_int)
        Sink.all (int_of_char 'a')).map (fun r => (r.1.current_word_, r.1.off_, r.2.2))
        = some ("a".toList, npos, outcome.ret true) ∧
      resolve empty_dictionary_int "a".toList = "a".toList ∧
      dictionary_output_filter.write_amt
        { dictionary_ := empty_dictionary_int, current_word_ := "a".toList, off_ := npos }
        = 2 ∧
      char_range "a".toList npos 2 = none ∧
      char_range "a".toList 0 1 = some "a".toList ∧
      (dictionary_output_filter.close
        { dictionary_ := empty_dictionary_int, current_word_ := "a".toList, off_ := npos }
        Sink.all).isNone = true := by
  refine ⟨by decide, by decide, by decide, by decide, by decide, by decide⟩

/-- C10. Idempotent termination of the pull adapter. A call of `get` returns `EOF` because
the source has reported end of input when `eof_` is not yet set, no buffered character is
left to return, and the source delivers the rest of a word (alphabetic characters, possibly
none) and then end of input. The call then returns `EOF` with `eof_` set, and `k` further
calls of `get`, for every `k` and on whatever source, all return `EOF` and leave the filter
(`current_word_`, `off_`, `eof_`, dictionary) and the source, its count of reads included,
as they were. -/
theorem C10_get_idempotent_at_eof (f : dictionary_input_filter) (w : string) (reads : Nat)
    (he : f.eof_ = false) (hd : ¬ (f.off_ ≠ npos ∧ f.off_ < f.current_word_.length))
    (hw : ∀ ch ∈ w, f.dictionary_.getloc.isalpha (to_int_type ch) = outcome.ret true) :
    ∃ f1 : dictionary_input_filter,
      (∀ depth, dictionary_input_filter.get (depth + 2) f
          { pending := w.map some, reads := reads }
        = some (outcome.ret EOF, f1, { pending := [], reads := reads + w.length + 1 })) ∧
      f1.eof_ = true ∧
      ∀ (k depth : Nat) (src : Source),
        dictionary_input_filter.get_times (depth + 1) k f1 src
          = some (List.replicate k (outcome.ret EOF), f1, src) := by
  have hg : (if f.off_ = f.current_word_.length then
      { f with current_word_ := [], off_ := npos } else f).dictionary_ = f.dictionary_ := by
    split <;> rfl
  have hl := get_loop_alpha_run w
    (if f.off_ = f.current_word_.length then
      { f with current_word_ := [], off_ := npos } else f) reads
    (by rw [hg]; exact hw)
  obtain ⟨f2, hf2, he2⟩ : ∃ f2 : dictionary_input_filter,
      dictionary_input_filter.get_loop
          (if f.off_ = f.current_word_.length then
            { f with current_word_ := [], off_ := npos } else f) reads (w.map some)
        = (f2, { pending := [], reads := reads + w.length + 1 }, outcome.ret true) ∧
      f2.eof_ = true := ⟨_, hl, rfl⟩
  refine ⟨f2, fun depth => ?_, he2, fun k depth src => get_times_at_eof depth f2 src he2 k⟩
  rw [dictionary_input_filter.get, if_neg (by rw [he]; exact Bool.false_ne_true),
    dif_neg hd]
  show (match dictionary_input_filter.get_loop
      (if f.off_ = f.current_word_.length then
        { f with current_word_ := [], off_ := npos } else f) reads (w.map some) with
    | (f2, src2, outcome.ret false) => some (outcome.ret WOULD_BLOCK, f2, src2)
    | (f2, src2, outcome.bad_cast) => some (outcome.bad_cast, f2, src2)
    | (f2, src2, outcome.ret true) => dictionary_input_filter.get (depth + 1) f2 src2) = _
  rw [hf2]
  exact get_at_eof depth f2 _ he2

/-- C10 at a fresh filter over the dictionary `"cat" -> "dog"` in the default locale, on a
source that is at its end: the first `get` returns `EOF`, and so do three more calls, which
change nothing. -/
theorem C10_get_idempotent_at_eof_witness :
    (dictionary_input_filter.ctor cat_dog).eof_ = false ∧
      ¬ ((dictionary_input_filter.ctor cat_dog).off_ ≠ npos ∧
        (dictionary_input_filter.ctor cat_dog).off_
          < (dictionary_input_filter.ctor cat_dog).current_word_.length) ∧
      ∃ f1 : dictionary_input_filter,
        (∀ depth, dictionary_input_filter.get (depth + 2) (dictionary_input_filter.ctor cat_dog)
            { pending := ([] : string).map some, reads := 0 }
          = some (outcome.ret EOF, f1,
              { pending := [], reads := 0 + ([] : string).length + 1 })) ∧
        f1.eof_ = true ∧
        ∀ (k depth : Nat) (src : Source),
          dictionary_input_filter.get_times (depth + 1) k f1 src
            = some (List.replicate k (outcome.ret EOF), f1, src) :=
  ⟨rfl, by decide,
    C10_get_idempotent_at_eof (dictionary_input_filter.ctor cat_dog) [] 0 rfl (by decide)
      (fun ch hch => (by cases hch))⟩

/-- C11. With the empty dictionary, in a locale that has a facet `ctype<int>` for which the
character of code 254 is not alphabetic, and a source that delivers this one character and
is always ready: the first `get` buffers the character and returns it converted from `char`
to `int`, which is `-2`, the value of `WOULD_BLOCK`, and the next `get` returns `EOF`. When
the same source is not ready at its first read, the calls return `WOULD_BLOCK`,
`WOULD_BLOCK`, `EOF`. With the `WOULD_BLOCK` results removed the second run gives `EOF`
alone, the run without any read that is not ready gives `WOULD_BLOCK`, `EOF`, and the
character is returned by neither as a character. -/
theorem C11_buffered_char_returned_as_would_block :
    int_of_char (Char.ofNat 254) = WOULD_BLOCK ∧
      to_int_type (Char.ofNat 254) = 254 ∧
      empty_dictionary_int.getloc.isalpha (to_int_type (Char.ofNat 254)) = outcome.ret false ∧
      (dictionary_input_filter.get_times 2 2
        (dictionary_input_filter.ctor empty_dictionary_int)
        { pending := [some (Char.ofNat 254)], reads := 0 }).map (fun r => (r.1, r.2.2))
        = some ([outcome.ret WOULD_BLOCK, outcome.ret EOF], { pending := [], reads := 2 }) ∧
      (dictionary_input_filter.get_times 2 3
        (dictionary_input_filter.ctor empty_dictionary_int)
        { pending := [none, some (Char.ofNat 254)], reads := 0 }).map (fun r => (r.1, r.2.2))
        = some ([outcome.ret WOULD_BLOCK, outcome.ret WOULD_BLOCK, outcome.ret EOF],
            { pending := [], reads := 3 }) ∧
      [outcome.ret WOULD_BLOCK, outcome.ret WOULD_BLOCK, outcome.ret EOF].filter
          (fun r => decide (r ≠ outcome.ret WOULD_BLOCK))
        ≠ [outcome.ret WOULD_BLOCK, outcome.ret EOF] := by
  refine ⟨by decide, by decide, by decide, by decide, by decide, by decide⟩

/-- C12. `replace` does not mutate the dictionary: for every dictionary built from the
constructor by `add` calls in the classic locale and every word `w`, the dictionary after
`replace(w)` is the dictionary before it, so a later `replace` of any word gives what it
would have given before. -/
theorem C12_replace_keeps_dictionary (uninit : Nat) (entries : List (string × string))
    (w : string) :
    ((dictionary.build locale.classic uninit entries).replace w).1
        = dictionary.build locale.classic uninit entries ∧
      ∀ w2, ((dictionary.build locale.classic uninit entries).replace w).1.replace w2
        = (dictionary.build locale.classic uninit entries).replace w2 := by
  have h := build_replace_unchanged locale.classic classic_tolower_idem
    classic_isupper_tolower uninit entries w
  exact ⟨h, fun w2 => by rw [h]⟩

/-- C13 as stated fails: after `add("", "x")`, `replace` applied to the empty string returns
`true` and leaves `"x"`. -/
theorem C13_empty_key_matches_empty_word :
    (empty_key_dictionary.replace []).2 = ("x".toList, true) := by
  decide

/-- C13, as amended. In a dictionary built by `add` calls none of which has an empty key,
`replace` applied to the empty string returns `false` and leaves it empty, and the dictionary
as it was. So the adapters emit nothing for an empty word: at end of input with an empty
current word the blocking adapter writes nothing; and at a character `c` for which
`std::isalpha` returns `false`, met with an empty current word, the blocking adapter writes
`c` alone, the push adapter buffers `c` alone, also when it first has to write a pending
word with its separator to a sink that takes everything, and the loop of the pull adapter
buffers `c` alone. After `add("", v)`, `replace` applied to the empty string returns `true`
and leaves `v`. -/
theorem C13_empty_word_without_empty_key (loc : locale) (uninit : Nat)
    (entries : List (string × string)) (hne : ∀ e ∈ entries, e.1 ≠ []) :
    (dictionary.build loc uninit entries).replace []
        = (dictionary.build loc uninit entries, [], false) ∧
      (∀ cout, dictionary_stdio_filter.do_filter
          { dictionary_ := dictionary.build loc uninit entries, current_word_ := [] } [] cout
        = ({ dictionary_ := dictionary.build loc uninit entries, current_word_ := [] }, cout,
            outcome.ret ())) ∧
      (∀ ch cin cout, loc.isalpha (to_int_type ch) = outcome.ret false →
        dictionary_stdio_filter.do_filter
          { dictionary_ := dictionary.build loc uninit entries, current_word_ := [] }
          (ch :: cin) cout
        = dictionary_stdio_filter.do_filter
          { dictionary_ := dictionary.build loc uninit entries, current_word_ := [] }
          cin (cout ++ [char_of_int (to_int_type ch)])) ∧
      (∀ (s : Sink) (c : Int), loc.isalpha c = outcome.ret false →
        dictionary_output_filter.put
          { dictionary_ := dictionary.build loc uninit entries, current_word_ := [],
            off_ := npos } s c
        = some ({ dictionary_ := dictionary.build loc uninit entries,
                  current_word_ := [char_of_int c], off_ := 0 }, s, outcome.ret true)) ∧
      (∀ (cw : string) (off : Nat) (s : Sink) (c : Int), s.accept = (fun _ m => m) →
        off < cw.length → cw.length < 2 ^ 63 → loc.isalpha c = outcome.ret false →
        dictionary_output_filter.put
          { dictionary_ := dictionary.build loc uninit entries, current_word_ := cw,
            off_ := off } s c
        = some ({ dictionary_ := dictionary.build loc uninit entries,
                  current_word_ := [char_of_int c], off_ := 0 },
            { s with received := s.received ++ cw.drop off, calls := s.calls + 1 },
            outcome.ret true)) ∧
      (∀ reads ch rest, loc.isalpha (to_int_type ch) = outcome.ret false →
        dictionary_input_filter.get_loop
          { dictionary_ := dictionary.build loc uninit entries, current_word_ := [],
            off_ := npos, eof_ := false } reads (some ch :: rest)
        = ({ dictionary_ := dictionary.build loc uninit entries,
             current_word_ := [char_of_int (to_int_type ch)], off_ := 0, eof_ := false },
            { pending := rest, reads := reads + 1 }, outcome.ret true)) ∧
      ∀ v, ((dictionary.build loc uninit entries).add [] v).replace []
        = ((dictionary.build loc uninit entries).add [] v, v, true) := by
  have hr := replace_not_found _ [] (build_find_nil loc uninit entries hne)
  have hl : (dictionary.build loc uninit entries).getloc = loc := build_loc loc uninit entries
  refine ⟨hr, ?_, ?_, ?_, ?_, ?_, ?_⟩
  · intro cout
    rw [dictionary_stdio_filter.do_filter]
    simp [hr]
  · intro ch cin cout hc
    rw [dictionary_stdio_filter.do_filter]
    simp [hl, hc, hr]
  · intro s c hc
    rw [put_no_pending _ s c rfl, put_accept_other _ c (by rw [hl]; exact hc)]
    simp [hr]
  · intro cw off s c hs hoff hlen hc
    rw [put_pending_all _ s c hs hoff hlen,
      put_accept_other
        { dictionary_ := dictionary.build loc uninit entries, current_word_ := [],
          off_ := npos } c (by rw [hl]; exact hc)]
    simp [hr]
  · intro reads ch rest hc
    simp [dictionary_input_filter.get_loop, hl, hc, hr]
  · intro v
    rw [replace_empty_word, add_find]
    simp [fold]

/-- C13 at the dictionary `"cat" -> "dog"`, in a locale that has a facet `ctype<int>`, and
the character `','`. -/
theorem C13_empty_word_without_empty_key_witness :
    (∀ e ∈ [("cat".toList, "dog".toList)], e.1 ≠ []) ∧
      cat_dog_int.replace [] = (cat_dog_int, [], false) ∧
      locale.classic_int.isalpha (to_int_type ',') = outcome.ret false ∧
      dictionary_stdio_filter.do_filter { dictionary_ := cat_dog_int, current_word_ := [] }
          (',' :: "a".toList) []
        = dictionary_stdio_filter.do_filter { dictionary_ := cat_dog_int, current_word_ := [] }
          "a".toList ([] ++ [char_of_int (to_int_type ',')]) :=
  ⟨by decide,
    (C13_empty_word_without_empty_key locale.classic_int 0 [("cat".toList, "dog".toList)]
      (by decide)).1,
    by decide,
    (C13_empty_word_without_empty_key locale.classic_int 0 [("cat".toList, "dog".toList)]
      (by decide)).2.2.1 ',' "a".toList [] (by decide)⟩

/-- C14. `add` stores under the folded key and overwrites: after `add(k, v)` the entry for
the case-folded form of `k` is `v` whatever was stored before, also when an earlier `add` had
the same folded key; the entries for all other keys are as before; and, in a locale where a
lowercase character is never uppercase (as in the classic locale), `replace` applied to the
folded `k` returns `true` and sets the word to `v`. -/
theorem C14_add_stores_folded_and_overwrites (d : dictionary) (k v : string) :
    map_find (d.add k v).map_ (fold d.loc_ k) = some v ∧
      (∀ k1 v1, fold d.loc_ k1 = fold d.loc_ k →
        map_find ((d.add k1 v1).add k v).map_ (fold d.loc_ k) = some v) ∧
      (∀ w, w ≠ fold d.loc_ k → map_find (d.add k v).map_ w = map_find d.map_ w) ∧
      ((∀ c, d.loc_.isupper (d.loc_.tolower c) = false) →
        (d.add k v).replace (fold d.loc_ k) = (d.add k v, v, true)) := by
  refine ⟨?_, ?_, ?_, ?_⟩
  · rw [add_find, if_pos rfl]
  · intro k1 v1 _
    rw [add_find, add_loc, if_pos rfl]
  · intro w hw
    rw [add_find, if_neg (fun h => hw h.symm)]
  · intro hlu
    have hf : map_find (d.add k v).map_ (fold d.loc_ k) = some v := by
      rw [add_find, if_pos rfl]
    unfold dictionary.replace
    rw [hf]
    cases v with
    | nil => rfl
    | cons v0 vs =>
      cases k with
      | nil => rfl
      | cons k0 ks =>
        have : (d.add (k0 :: ks) (v0 :: vs)).loc_.isupper (d.loc_.tolower k0) = false := hlu _
        simp [fold, this]

/-- C14 at the dictionary `"cat" -> "dog"`, to which `add("CAT", "Dog")` is applied. -/
theorem C14_add_stores_folded_and_overwrites_witness :
    (∀ c, cat_dog.loc_.isupper (cat_dog.loc_.tolower c) = false) ∧
      map_find (cat_dog.add "CAT".toList "Dog".toList).map_ "cat".toList = some "Dog".toList ∧
      (cat_dog.add "CAT".toList "Dog".toList).replace "cat".toList
        = (cat_dog.add "CAT".toList "Dog".toList, "Dog".toList, true) :=
  ⟨classic_isupper_tolower,
    (C14_add_stores_folded_and_overwrites cat_dog "CAT".toList "Dog".toList).1,
    (C14_add_stores_folded_and_overwrites cat_dog "CAT".toList "Dog".toList).2.2.2
      classic_isupper_tolower⟩

/-- C15. Failed `put` consumes nothing: in every state reached from the constructor by `put`
calls, however each of them has ended (stored values shorter than `n`, fewer than `n`
calls), `put` with any argument `c` and any sink ends by returning or by throwing
`std::bad_cast`, without a read outside the buffer; it returns `false` exactly when a word is
pending (`off_` is not `npos`) and the sink took fewer characters than the `size() - off_`
offered; and then the buffer and the dictionary are as they were, `c` is not appended,
`off_` has grown by the count the sink returned and the sink has received that many
characters of the buffer, from `off_` on. -/
theorem C15_failed_put_consumes_nothing (d : dictionary) (n : Nat)
    (calls : List (Sink × Char))
    (hv : ∀ key v, map_find d.map_ key = some v → v.length < n)
    (hk : calls.length < n) (hn : n < 2 ^ 63) (f : dictionary_output_filter)
    (hf : dictionary_output_filter.put_calls (dictionary_output_filter.ctor d) calls = some f)
    (s : Sink) (c : Int) :
    ∃ f1 s1 o, f.put s c = some (f1, s1, o) ∧
      (o = outcome.ret false ↔ (f.off_ ≠ npos ∧
        s.count (f.current_word_.length - f.off_) < f.current_word_.length - f.off_)) ∧
      (o = outcome.ret false →
        f1.current_word_ = f.current_word_ ∧ f1.dictionary_ = f.dictionary_ ∧
          f1.off_ = f.off_ + s.count (f.current_word_.length - f.off_) ∧
          s1.received = s.received ++ (f.current_word_.drop f.off_).take
            (s.count (f.current_word_.length - f.off_))) := by
  obtain ⟨g, e, hst, hb⟩ := put_calls_keep_state n hn calls _
    (ctor_state n d calls.length hv hk).1 (ctor_state n d calls.length hv hk).2
  rw [hf] at e
  simp only [Option.some.injEq] at e
  subst e
  have hkind : f.off_ = npos ∨
      (f.off_ < f.current_word_.length ∧ f.current_word_.length < 2 ^ 63) := by
    rcases hst with ⟨h, _⟩ | ⟨h, _⟩
    · exact Or.inl h
    · rcases hb.2 with ⟨h2, _⟩ | ⟨_, h2, _⟩
      · exact Or.inl h2
      · exact Or.inr ⟨h, by omega⟩
  rw [put_result f s c hkind]
  by_cases hr : f.off_ ≠ npos ∧
      s.count (f.current_word_.length - f.off_) < f.current_word_.length - f.off_
  · rw [if_pos hr]
    exact ⟨_, _, _, rfl, ⟨fun _ => hr, fun _ => rfl⟩, fun _ => ⟨rfl, rfl, rfl, rfl⟩⟩
  · rw [if_neg hr]
    by_cases hoff : f.off_ ≠ npos
    · rw [if_pos hoff]
      exact ⟨_, _, _, rfl,
        ⟨fun h => absurd h (put_accept_not_false _ c), fun h => absurd h hr⟩,
        fun h => absurd h (put_accept_not_false _ c)⟩
    · rw [if_neg hoff]
      exact ⟨_, _, _, rfl,
        ⟨fun h => absurd h (put_accept_not_false _ c), fun h => absurd h hr⟩,
        fun h => absurd h (put_accept_not_false _ c)⟩

/-- C15 at the dictionary `"cat" -> "dog"`, in a locale that has a facet `ctype<int>`, in the
state reached by `put('a')` and `put(' ')` (buffer `"a "`, `off_ = 0`), with a sink that
takes one character and the character `'b'`. -/
theorem C15_failed_put_consumes_nothing_witness :
    (∀ key v, map_find cat_dog_int.map_ key = some v → v.length < 5) ∧
      [(Sink.all, 'a'), (Sink.all, ' ')].length < 5 ∧ 5 < 2 ^ 63 ∧
      dictionary_output_filter.put_calls (dictionary_output_filter.ctor cat_dog_int)
          [(Sink.all, 'a'), (Sink.all, ' ')]
        = some { dictionary_ := cat_dog_int, current_word_ := "a ".toList, off_ := 0 } ∧
      ∃ f1 s1 o,
        dictionary_output_filter.put
            { dictionary_ := cat_dog_int, current_word_ := "a ".toList, off_ := 0 }
            (Sink.at_most 1) (int_of_char 'b') = some (f1, s1, o) ∧
          (o = outcome.ret false ↔ ((0 : Nat) ≠ npos ∧
            (Sink.at_most 1).count ("a ".toList.length - 0) < "a ".toList.length - 0)) ∧
          (o = outcome.ret false →
            f1.current_word_ = "a ".toList ∧ f1.dictionary_ = cat_dog_int ∧
              f1.off_ = 0 + (Sink.at_most 1).count ("a ".toList.length - 0) ∧
              s1.received = (Sink.at_most 1).received ++ ("a ".toList.drop 0).take
                ((Sink.at_most 1).count ("a ".toList.length - 0))) :=
  have hv : ∀ key v, map_find cat_dog_int.map_ key = some v → v.length < 5 :=
    fun k v h => (by decide : ∀ p ∈ cat_dog_int.map_, p.2.length < 5) (k, v)
      (map_find_mem _ k v h)
  ⟨hv, by decide, by norm_num, rfl,
    C15_failed_put_consumes_nothing cat_dog_int 5 [(Sink.all, 'a'), (Sink.all, ' ')] hv
      (by decide) (by norm_num)
      { dictionary_ := cat_dog_int, current_word_ := "a ".toList, off_ := 0 } rfl
      (Sink.at_most 1) (int_of_char 'b')⟩

/-- C16. `put` never re-emits or skips a character under partial writes: for every
dictionary, every input (stored values and input shorter than `n`) and every sink, that has
received nothing yet and takes at each write any number of the characters offered, if each
`put` is retried with the same character until it returns `true` and all of them have
returned `true` (within `m` tries each), then the same `put` calls against a sink that takes
everything return `true` at the first try, and leave the same filter state and the same text
received. When the locale of the dictionary has a facet `ctype<int>` and the sink takes at
least one character at every write that offers some, all the `put` calls do return `true`
within `n` tries. -/
theorem C16_retried_put_same_as_full_sink (d : dictionary) (input : string) (n m : Nat)
    (s : Sink) (hv : ∀ key v, map_find d.map_ key = some v → v.length < n)
    (hi : input.length < n) (hn : n < 2 ^ 63) (hs : s.received = []) :
    (∀ g t,
      dictionary_output_filter.put_all m (dictionary_output_filter.ctor d) s input
        = some (g, t) →
      ∃ tf, dictionary_output_filter.put_all 1 (dictionary_output_filter.ctor d)
          Sink.all input = some (g, tf) ∧ t.received = tf.received) ∧
      (d.loc_.ctype_int ≠ none → (∀ i k, 0 < k → 0 < s.accept i k) →
        ∃ g t, dictionary_output_filter.put_all n (dictionary_output_filter.ctor d) s input
          = some (g, t)) := by
  have hinv : push_inv n (dictionary_output_filter.ctor d) input.length :=
    ⟨hv, Or.inl ⟨rfl, by simpa [dictionary_output_filter.ctor] using hi⟩⟩
  exact ⟨fun g t h => put_all_any_eq_all n hn m input _ g s t Sink.all rfl hs hinv h,
    fun hfac hp => put_all_progress n hn input _ s hp hfac hinv⟩

/-- C16 at the dictionary `"cat" -> "dog"`, in a locale that has a facet `ctype<int>`, and
the input `"cat a"`, with a sink that takes nothing at every other call and one character at
the calls between: the last `put` returns `true` at its eighth try, and the sink has then
received `"dog "`. -/
theorem C16_retried_put_same_as_full_sink_witness :
    (∀ key v, map_find cat_dog_int.map_ key = some v → v.length < 6) ∧
      "cat a".toList.length < 6 ∧ 6 < 2 ^ 63 ∧ Sink.stuttering.received = [] ∧
      dictionary_output_filter.put_all 8 (dictionary_output_filter.ctor cat_dog_int)
          Sink.stuttering "cat a".toList
        = some ({ dictionary_ := cat_dog_int, current_word_ := "a".toList, off_ := npos },
            { received := "dog ".toList, calls := 8, accept := fun i _ => i % 2 }) ∧
      ∃ tf, dictionary_output_filter.put_all 1 (dictionary_output_filter.ctor cat_dog_int)
          Sink.all "cat a".toList
          = some ({ dictionary_ := cat_dog_int, current_word_ := "a".toList, off_ := npos },
              tf) ∧
        "dog ".toList = tf.received :=
  have hv : ∀ key v, map_find cat_dog_int.map_ key = some v → v.length < 6 :=
    fun k v h => (by decide : ∀ p ∈ cat_dog_int.map_, p.2.length < 6) (k, v)
      (map_find_mem _ k v h)
  ⟨hv, by decide, by norm_num, rfl, rfl,
    (C16_retried_put_same_as_full_sink cat_dog_int "cat a".toList 6 8 Sink.stuttering hv
      (by decide) (by norm_num) rfl).1 _ _ rfl⟩

/-- C17. On a fresh filter over the empty dictionary, in the default locale, and a source at
end of input: `get` does not return without its nested call; the loop is left through
`break` with `eof_` set and an empty `current_word_`; and the nested call `this->get(src)`,
commented `current_word_ is not empty` in the source, is made in that state and returns
`EOF`. -/
theorem C17_nested_call_with_empty_buffer :
    (dictionary_input_filter.get 1 (dictionary_input_filter.ctor empty_dictionary)
        { pending := [], reads := 0 }).isNone = true ∧
      (dictionary_input_filter.get_loop (dictionary_input_filter.ctor empty_dictionary)
        0 []).2.2 = outcome.ret true ∧
      (dictionary_input_filter.get_loop (dictionary_input_filter.ctor empty_dictionary)
        0 []).1.current_word_ = [] ∧
      (dictionary_input_filter.get 2 (dictionary_input_filter.ctor empty_dictionary)
        { pending := [], reads := 0 }).map (fun r => (r.1, r.2.1.current_word_, r.2.1.eof_))
        = some (outcome.ret EOF, [], true) := by
  refine ⟨by decide, by decide, by decide, by decide⟩

/-- C18. With the entry `"cat" -> "dog"` in the default locale and the input
`"The cat sat"`, the first `get` of the pull adapter reads `T` and is left through
`std::bad_cast` with nothing buffered, and so is every further call, each after one more
read; `do_filter` is left through `std::bad_cast` as well, with nothing written. With the
same entry in a locale that has a facet `ctype<int>`, nine `get` calls return `"The dog "`
and `EOF`, and the blocking adapter writes `"The dog sat"`. -/
theorem C18_get_throws_in_classic_locale :
    (dictionary_input_filter.get 2 (dictionary_input_filter.ctor cat_dog)
        (Source.of_string "The cat sat".toList)).map
          (fun r => (r.1, r.2.1.current_word_, r.2.1.off_, r.2.1.eof_, r.2.2.reads))
        = some (outcome.bad_cast, [], npos, false, 1) ∧
      (dictionary_input_filter.get_times 2 3 (dictionary_input_filter.ctor cat_dog)
        (Source.of_string "The cat sat".toList)).map
          (fun r => (r.1, r.2.1.current_word_, r.2.2.reads))
        = some ([outcome.bad_cast, outcome.bad_cast, outcome.bad_cast], [], 3) ∧
      blocking_output cat_dog "The cat sat".toList = ([], outcome.bad_cast) ∧
      (dictionary_input_filter.get_times 2 9 (dictionary_input_filter.ctor cat_dog_int)
        (Source.of_string "The cat sat".toList)).map (fun r => r.1)
        = some ("The dog ".toList.map (fun c => outcome.ret (int_of_char c))
            ++ [outcome.ret EOF]) ∧
      blocking_output cat_dog_int "The cat sat".toList
        = ("The dog sat".toList, outcome.ret ()) := by
  refine ⟨by decide, by decide, by decide, by decide, by decide⟩

/-- C19. Push automaton state invariant: in every state reached from the constructor by
`put` calls alone, with any characters and any sinks, however each call has ended (stored
values shorter than `n`, fewer than `n` calls), either `off_` is `npos` and the buffer holds
alphabetic characters only, or `off_` is less than the size of the buffer and the buffer is
a resolved word followed by one non-alphabetic character; so the write that the next `put`
issues when a word is pending offers a positive number of characters, from `off_` to the end
of the buffer. -/
theorem C19_push_state_invariant (d : dictionary) (n : Nat) (calls : List (Sink × Char))
    (hv : ∀ key v, map_find d.map_ key = some v → v.length < n)
    (hk : calls.length < n) (hn : n < 2 ^ 63) :
    ∃ f, dictionary_output_filter.put_calls (dictionary_output_filter.ctor d) calls = some f ∧
      push_state f ∧
      (f.off_ ≠ npos →
        0 < f.write_amt ∧ f.off_ + f.write_amt = f.current_word_.length ∧
          char_range f.current_word_ f.off_ f.write_amt
            = some (f.current_word_.drop f.off_)) := by
  obtain ⟨f, e, hst, hb⟩ := put_calls_keep_state n hn calls _
    (ctor_state n d calls.length hv hk).1 (ctor_state n d calls.length hv hk).2
  refine ⟨f, e, hst, fun hoff => ?_⟩
  rcases hst with ⟨h, _⟩ | ⟨h, _⟩
  · exact absurd h hoff
  · rcases hb.2 with ⟨h2, _⟩ | ⟨_, h2, _⟩
    · exact absurd h2 hoff
    · exact pending_write_range f h (by omega)

/-- C19 at the dictionary `"cat" -> "dog"`, in a locale that has a facet `ctype<int>`, and
the calls `put('a')`, `put(' ')` with a sink that takes everything, then `put('b')` with a
sink that takes one character, which leaves `"a "` pending from offset `1`. -/
theorem C19_push_state_invariant_witness :
    (∀ key v, map_find cat_dog_int.map_ key = some v → v.length < 5) ∧
      [(Sink.all, 'a'), (Sink.all, ' '), (Sink.at_most 1, 'b')].length < 5 ∧ 5 < 2 ^ 63 ∧
      (dictionary_output_filter.put_calls (dictionary_output_filter.ctor cat_dog_int)
          [(Sink.all, 'a'), (Sink.all, ' '), (Sink.at_most 1, 'b')]).map
            (fun f => (f.current_word_, f.off_)) = some ("a ".toList, 1) ∧
      ∃ f, dictionary_output_filter.put_calls (dictionary_output_filter.ctor cat_dog_int)
          [(Sink.all, 'a'), (Sink.all, ' '), (Sink.at_most 1, 'b')] = some f ∧
        push_state f ∧
        (f.off_ ≠ npos →
          0 < f.write_amt ∧ f.off_ + f.write_amt = f.current_word_.length ∧
            char_range f.current_word_ f.off_ f.write_amt
              = some (f.current_word_.drop f.off_)) :=
  have hv : ∀ key v, map_find cat_dog_int.map_ key = some v → v.length < 5 :=
    fun k v h => (by decide : ∀ p ∈ cat_dog_int.map_, p.2.length < 5) (k, v)
      (map_find_mem _ k v h)
  ⟨hv, by decide, by norm_num, by decide,
    C19_push_state_invariant cat_dog_int 5
      [(Sink.all, 'a'), (Sink.all, ' '), (Sink.at_most 1, 'b')] hv (by decide) (by norm_num)⟩

end iostreams
